import Mathlib

/-!
trackwall: host list, list compiler and block-page handlers

A shallow embedding of `config.go` (package main of trackwall), of
`dnsblock/http.go` and of `srvhttp/srvhttp.go`.

Go strings are modelled as lists of characters (`Str`).  Go maps with string
keys are modelled as association lists with at most one entry per key; the
order in which a `for ... range` loop visits a map is an explicit argument.
`fatal(err)` with a non-nil error ends the process; functions that can reach
it report the error next to what they did before.  Logging (`info`, `warn`)
is not modelled.
-/

set_option autoImplicit false
set_option maxRecDepth 100000

namespace trackwall

/-- A Go string. -/
abbrev Str := List Char

/-! ## The `strings` functions used by the sources -/

/-- Go's `strings.HasPrefix(s, p)`. -/
def HasPrefix (s p : Str) : Bool := p.isPrefixOf s

/-- Go's `strings.HasSuffix(s, p)`. -/
def HasSuffix (s p : Str) : Bool := p.isSuffixOf s

/-- Go's `strings.Split(s, sep)` for a separator of one character: the pieces of
`s` between the occurrences of `sep`; never empty. -/
def Split (sep : Char) : Str → List Str
  | [] => [[]]
  | c :: cs =>
    if c = sep then [] :: Split sep cs
    else
      match Split sep cs with
      | [] => [[c]]
      | p :: ps => (c :: p) :: ps

/-- Go's `strings.Join(parts, sep)`. -/
def Join (sep : Str) : List Str → Str
  | [] => []
  | [a] => a
  | a :: b :: rest => a ++ sep ++ Join sep (b :: rest)

/-- The loop of `strings.Replace`: `n` replacements are still allowed and
`skip` counts the characters of a matched occurrence of `old` that are still
to be passed over. -/
def replaceGo (old new : Str) : Nat → Nat → Str → Str
  | _, _, [] => []
  | n, skip + 1, _ :: cs => replaceGo old new n skip cs
  | 0, 0, c :: cs => c :: replaceGo old new 0 0 cs
  | n + 1, 0, c :: cs =>
    if old.isPrefixOf (c :: cs) then new ++ replaceGo old new n (old.length - 1) cs
    else c :: replaceGo old new (n + 1) 0 cs

/-- Go's `strings.Replace(s, old, new, n)` for a non-empty `old`: the first
`n` non-overlapping occurrences of `old`, from the left, become `new`; all
of them (there are at most `len(s)`) when `n < 0`. -/
def Replace (s old new : Str) (n : Int) : Str :=
  replaceGo old new (if n < 0 then s.length else n.toNat) 0 s

/-- Go's `unicode.IsSpace`. -/
def isSpace (c : Char) : Bool :=
  let n := c.toNat
  (9 ≤ n && n ≤ 13) || n == 0x20 || n == 0x85 || n == 0xA0 || n == 0x1680 ||
  (0x2000 ≤ n && n ≤ 0x200a) || n == 0x2028 || n == 0x2029 || n == 0x202f ||
  n == 0x205f || n == 0x3000

/-- Go's `strings.TrimSpace(s)`. -/
def TrimSpace (s : Str) : Str :=
  ((s.dropWhile isSpace).reverse.dropWhile isSpace).reverse

/-- Go's `strings.TrimLeft(s, "/")`. -/
def TrimLeftSlash (s : Str) : Str := s.dropWhile (fun c => c == '/')

/-! ## The host map -/

/-- A `map[string]string`: one entry per key. -/
abbrev HostMap := List (Str × Str)

/-- The keys of a map. -/
def keys (m : HostMap) : List Str := m.map Prod.fst

/-- The test `_, has := m[k]`. -/
def has (m : HostMap) (k : Str) : Bool := m.any (fun e => e.1 == k)

/-- The read `m[k]`: the value, the empty string when the key is absent. -/
def get (m : HostMap) (k : Str) : Str := (m.lookup k).getD []

/-- The assignment `m[k] = v`. -/
def set (m : HostMap) (k v : Str) : HostMap :=
  if has m k then m.map (fun e => if e.1 == k then (e.1, v) else e)
  else m ++ [(k, v)]

/-- The statement `delete(m, k)`. -/
def del (m : HostMap) (k : Str) : HostMap := m.filter (fun e => !(e.1 == k))

/-- The method `ConfigT.addHost`, on the global `_hosts`. -/
def addHost (hosts : HostMap) (name : Str) : HostMap :=
  let name := if HasPrefix name "www.".toList then Replace name "www.".toList [] 1 else name
  if name = [] then hosts
  else if has hosts name then hosts
  else set hosts name []

/-- The method `ConfigT.removeHost`. -/
def removeHost (hosts : HostMap) (v : Str) : HostMap := del hosts v

/-! ## compile -/

/-- The loop `for i := 0; i < l; i++` of `compile`: `rest` holds the labels
still to be prepended, last label first, `c` the suffix built so far.  True
when the loop leaves through `continue outer`. -/
def suffixLoop (newHosts : HostMap) : List Str → Str → Bool
  | [], _ => false
  | lab :: rest, c =>
    let c := if c = [] then lab else lab ++ ".".toList ++ c
    if has newHosts c then true else suffixLoop newHosts rest c

/-- The loop `for host := range newHosts` of `compile`, visiting `visit`;
an entry deleted before it is reached is not visited. -/
def evictLoop (name : Str) : List Str → HostMap → HostMap
  | [], newHosts => newHosts
  | host :: rest, newHosts =>
    if has newHosts host && HasSuffix host name then evictLoop name rest (del newHosts name)
    else evictLoop name rest newHosts

/-- One pass of the body of `outer: for name := range _hosts`. -/
def compileStep (newHosts : HostMap) (name : Str) : HostMap :=
  if suffixLoop newHosts (Split '.' name).reverse [] then newHosts
  else set (evictLoop name (keys newHosts) newHosts) name []

/-- The map `newHosts` that `ConfigT.compile` builds when the outer loop
visits the keys of `_hosts` in the order `order`. -/
def compile (order : List Str) : HostMap := order.foldl compileStep []

/-- The bytes `compile` writes to `/cache/compiled` when its loop
`for k := range newHosts` visits the keys in the order `written`: every key
followed by a line feed. -/
def compiledFile (written : List Str) : Str := (written.map (fun k => k ++ ['\n'])).flatten

/-! ## Reading lists -/

/-- The `dropCR` of `bufio`: one trailing carriage return is removed. -/
def dropCR (line : Str) : Str :=
  if line.getLast? = some '\r' then line.dropLast else line

/-- The number of bytes of a character in UTF-8. -/
def utf8Len (c : Char) : Nat :=
  let n := c.toNat
  if n < 0x80 then 1 else if n < 0x800 then 2 else if n < 0x10000 then 3 else 4

/-- The length `len(s)` of a string, in bytes. -/
def byteLength (s : Str) : Nat := (s.map utf8Len).sum

/-- The constant `bufio.MaxScanTokenSize`, the largest buffer of a scanner. -/
def MaxScanTokenSize : Nat := 64 * 1024

/-- The tokens `bufio.Scanner` yields with its default split function
`ScanLines`: the text between line feeds, each without its trailing carriage
return; text after the last line feed is a line when it is not empty.  A
line of `MaxScanTokenSize` bytes or more does not fit the buffer: `Scan`
returns false there, and since no caller reads `scanner.Err()` the lines
before it are all that is read. -/
def scanLines (data : Str) : List Str :=
  let pieces := Split '\n' data
  let lines := if pieces.getLast? = some [] then pieces.dropLast else pieces
  (lines.takeWhile (fun l => byteLength l < MaxScanTokenSize)).map dropCR

/-- What one pass of the loop of `loadList` does with a line. -/
inductive LineOutcome where
  | skip
  | call (line : Str)
  | fatal (msg : Str)
deriving DecidableEq, Repr

/-- The hostnames `loadList` drops from a hosts file. -/
def localNames : List Str :=
  ["localhost".toList, "localhost.localdomain".toList, "broadcasthost".toList, "local".toList]

/-- The body of the loop `for scanner.Scan()` of `loadList`. -/
def loadLine (format raw : Str) : LineOutcome :=
  let line := TrimSpace raw
  if line = [] then .skip
  else if format = "hosts".toList then
    if line.head? = some '#' then .skip
    else
      let line := Join " ".toList ((Split ' ' line).drop 1)
      let line := (Split '#' line).headD []
      let line := TrimSpace line
      if line ∈ localNames then .skip else .call line
  else if format = "plain".toList then .call line
  else .fatal ("unknown format: ".toList ++ format ++ "\n".toList)

/-- What a run of `loadList` did: the arguments of its calls of `cb`, in
order, and the error it died of, if any. -/
structure Loaded where
  calls : List Str
  fatal : Option Str
deriving DecidableEq, Repr

/-- The loop of `loadList` over the scanner's lines. -/
def loadLoop (format : Str) : List Str → Loaded
  | [] => ⟨[], none⟩
  | raw :: rest =>
    match loadLine format raw with
    | .skip => loadLoop format rest
    | .call line => let r := loadLoop format rest; ⟨line :: r.calls, r.fatal⟩
    | .fatal msg => ⟨[], some msg⟩

/-- The method `ConfigT.loadList(format, url, cb)`, where `data` is the content of the
file that `loadCachedURL(url)` opened. -/
def loadList (format data : Str) : Loaded := loadLoop format (scanLines data)

/-! ## Regular expressions, surrogates -/

/-- Package `regexp` of the Go library, as far as the sources use it. -/
structure RegexpLib where
  /-- The type `*regexp.Regexp` -/
  Regexp : Type
  /-- Go's `regexp.Compile`; `none` is a pattern that does not compile -/
  Compile : Str → Option Regexp
  /-- Go's `(*Regexp).MatchString` -/
  MatchString : Regexp → Str → Bool
  /-- Go's `(*Regexp).String`: the source text of the pattern -/
  String : Regexp → Str

/-- The package variables `_hosts`, `_regexps` and `_surrogates`; a surrogate
is a `surrogateT`, a pattern with its script. -/
structure Globals (lib : RegexpLib) where
  hosts : HostMap
  regexps : List lib.Regexp
  surrogates : List (lib.Regexp × Str)

/-- The loop `for host := range _hosts` of `compileSurrogate`, visiting
`visit`. -/
def surrogateLoop (isMatch : Str → Bool) (sur : Str) : List Str → HostMap → HostMap
  | [], hosts => hosts
  | host :: rest, hosts =>
    if isMatch host then surrogateLoop isMatch sur rest (set hosts host sur)
    else surrogateLoop isMatch sur rest hosts

/-- The method `ConfigT.compileSurrogate(reg, sur)`.  With a pattern that does not
compile the process ends in `fatal(err)`. -/
def compileSurrogate (lib : RegexpLib) (g : Globals lib) (reg sur : Str) :
    Except Str (Globals lib) :=
  let sur := Replace sur "@@".toList "function()\x7b\x7d".toList (-1)
  match lib.Compile reg with
  | none => .error ("error parsing regexp: ".toList ++ reg)
  | some c =>
    .ok { g with
      surrogates := g.surrogates ++ [(c, sur)]
      hosts := surrogateLoop (lib.MatchString c) sur (keys g.hosts) g.hosts }

/-- The function `findSurrogate(host)` of dnsblock. -/
def findSurrogate (lib : RegexpLib) (g : Globals lib) (host : Str) : Str × Bool :=
  let sur := get g.hosts host
  let found := has g.hosts host
  if found && sur ≠ [] then (sur, true)
  else
    match g.surrogates.find? (fun s => lib.MatchString s.1 host) with
    | some s => (s.2, true)
    | none => ([], false)

/-- The method `ConfigT.addRegexp`. -/
def addRegexp (lib : RegexpLib) (g : Globals lib) (v : Str) : Except Str (Globals lib) :=
  match lib.Compile v with
  | none => .error ("error parsing regexp: ".toList ++ v)
  | some c => .ok { g with regexps := g.regexps ++ [c] }

/-- The loop of `ConfigT.removeRegexp`: the first pattern whose source is `v`
is removed. -/
def removeFirst (lib : RegexpLib) (v : Str) : List lib.Regexp → List lib.Regexp
  | [] => []
  | r :: rest => if lib.String r = v then rest else r :: removeFirst lib v rest

/-- The method `ConfigT.removeRegexp`. -/
def removeRegexp (lib : RegexpLib) (g : Globals lib) (v : Str) : Globals lib :=
  { g with regexps := removeFirst lib v g.regexps }

/-! ## Time -/

/-- An `int64` from a mathematical integer: the value modulo `2^64` in
`[-2^63, 2^63)`. -/
def wrap64 (x : Int) : Int := (x + 2 ^ 63) % 2 ^ 64 - 2 ^ 63

/-- The value `t.Add(time.Duration(secs) * time.Second).Unix()` for a time `t` given
in nanoseconds since the epoch: the duration is an `int64` of nanoseconds. -/
def addSeconds (t secs : Int) : Int := (t + wrap64 (secs * 1000000000)) / 1000000000

/-- The value `t.Unix()` for a time in nanoseconds since the epoch. -/
def unix (t : Int) : Int := t / 1000000000

/-! ## readHosts -/

/-- The fields of `ConfigT` that `readHosts` uses; a list source is the pair
of its format and its URL, a surrogate the pair of its pattern and script. -/
structure ConfigT where
  CacheHosts : Int
  Hostlists : List (Str × Str)
  Unhostlists : List (Str × Str)
  Regexplists : List (Str × Str)
  Unregexplists : List (Str × Str)
  Hosts : List Str
  Unhosts : List Str
  Regexps : List Str
  Unregexps : List Str
  Surrogates : List (Str × Str)

/-- What `readHosts` sees of the outside: the clock (nanoseconds since the
epoch), the file `/cache/compiled` when `os.Stat` finds it (its modification
time and its content) and, for every URL, the content of the file that
`loadCachedURL` opens. -/
structure Outside where
  now : Int
  compiled : Option (Int × Str)
  lists : Str → Str

/-- A loop `for _, v := range xs { f(v) }` over a step that may end in
`fatal`. -/
def forEach {σ α : Type} (f : σ → α → Except Str σ) : List α → σ → Except Str σ
  | [], s => .ok s
  | x :: xs, s =>
    match f s x with
    | .error e => .error e
    | .ok s => forEach f xs s

/-- The call `s.loadList(format, url, cb)` on the globals: `cb` runs on every item in
turn; an unknown format ends the process. -/
def loadInto {σ : Type} (out : Outside) (cb : σ → Str → Except Str σ) (g : σ)
    (v : Str × Str) : Except Str σ :=
  let r := loadList v.1 (out.lists v.2)
  match forEach cb r.calls g with
  | .error e => .error e
  | .ok g =>
    match r.fatal with
    | some e => .error e
    | none => .ok g

/-- The method `ConfigT.readHosts`. -/
def readHosts (lib : RegexpLib) (s : ConfigT) (out : Outside) (g : Globals lib) :
    Except Str (Globals lib) :=
  let addH : Globals lib → Str → Except Str (Globals lib) :=
    fun g v => .ok { g with hosts := addHost g.hosts v }
  let rmH : Globals lib → Str → Except Str (Globals lib) :=
    fun g v => .ok { g with hosts := removeHost g.hosts v }
  let rmR : Globals lib → Str → Except Str (Globals lib) :=
    fun g v => .ok (removeRegexp lib g v)
  let fresh : Option Str :=
    match out.compiled with
    | none => none
    | some (modTime, data) =>
      if unix out.now > addSeconds modTime s.CacheHosts then none else some data
  match fresh with
  | some data => forEach addH (scanLines data) g
  | none => do
    let g ← forEach (loadInto out addH) s.Hostlists g
    let g ← forEach (loadInto out rmH) s.Unhostlists g
    let g ← forEach (loadInto out (addRegexp lib)) s.Regexplists g
    let g ← forEach (loadInto out rmR) s.Unregexplists g
    let g ← forEach addH s.Hosts g
    let g ← forEach rmH s.Unhosts g
    let g ← forEach (addRegexp lib) s.Regexps g
    let g ← forEach rmR s.Unregexps g
    forEach (fun g v => compileSurrogate lib g v.1 v.2) s.Surrogates g

/-! ## Formatting -/

/-- The result of `html.EscapeString`. -/
def EscapeString (s : Str) : Str :=
  (s.map (fun c =>
    if c = '&' then "&amp;".toList
    else if c = Char.ofNat 39 then "&#39;".toList
    else if c = '<' then "&lt;".toList
    else if c = '>' then "&gt;".toList
    else if c = Char.ofNat 34 then "&#34;".toList
    else [c])).flatten

/-- The function `parsenum` of package `fmt` on the text that starts at the scan position:
whether a number was read, and the text after it.  A number above `10^6`
makes the scan jump to the end of the format. -/
def parsenum : Str → Nat → Bool → Bool × Str
  | [], _, isnum => (isnum, [])
  | c :: cs, num, isnum =>
    if '0' ≤ c ∧ c ≤ '9' then
      if num > 1000000 then (false, [])
      else parsenum cs (num * 10 + (c.toNat - '0'.toNat)) true
    else (isnum, c :: cs)

/-- The function `parseArgNumber` of package `fmt` on a text that starts with `[`: the
width of the bracketed index and whether it is well formed. -/
def parseArgNumber (format : Str) : Nat × Bool :=
  if format.length < 3 then (1, false)
  else
    match (format.drop 1).indexOf? ']' with
    | none => (1, false)
    | some k =>
      let r := parsenum ((format.drop 1).take k) 0 false
      (k + 2, r.1 && r.2 = [])

/-- The method `argNumber` of package `fmt` in a call without operands: the text after
an index in brackets, whether one was found (`afterIndex`), and the flag
`goodArgNum`, which every index clears since no operand exists. -/
def argNumber (format : Str) (good : Bool) : Str × Bool × Bool :=
  match format with
  | '[' :: _ =>
    let r := parseArgNumber format
    (format.drop r.1, r.2, false)
  | _ => (format, false, good)

/-- One directive of a format, from the character after `%`, in a call
without operands: the text it prints and the format left to process (`none`
when the format ended inside the directive).  A `.` starts a precision only
when a character follows it (`i+1 < end`); a `.` that ends the format is the
verb. -/
def directive (format : Str) : Str × Option Str :=
  let format := format.dropWhile (fun c => c ∈ "#0+- ".toList)
  let (format, afterIndex, good) := argNumber format true
  let (out1, format, afterIndex, good) : Str × Str × Bool × Bool :=
    match format with
    | '*' :: rest => ("%!(BADWIDTH)".toList, rest, false, good)
    | _ =>
      let r := parsenum format 0 false
      ([], r.2, afterIndex, good && !(afterIndex && r.1))
  let (out2, format, afterIndex, good) : Str × Str × Bool × Bool :=
    match format with
    | '.' :: next :: rest =>
      let (rest, afterIndex, good) := argNumber (next :: rest) (good && !afterIndex)
      match rest with
      | '*' :: rest => ("%!(BADPREC)".toList, rest, false, good)
      | _ => ([], (parsenum rest 0 false).2, afterIndex, good)
    | _ => ([], format, afterIndex, good)
  let (format, good) : Str × Bool :=
    if afterIndex then (format, good)
    else let r := argNumber format good; (r.1, r.2.2)
  match format with
  | [] => (out1 ++ out2 ++ "%!(NOVERB)".toList, none)
  | verb :: rest =>
    let out :=
      if verb = '%' then ['%']
      else if !good then "%!".toList ++ [verb] ++ "(BADINDEX)".toList
      else "%!".toList ++ [verb] ++ "(MISSING)".toList
    (out1 ++ out2 ++ out, some rest)

/-- The loop of `doPrintf` of package `fmt` in a call without operands;
every pass consumes at least one character of the format, which `fuel`
counts. -/
def doPrintf : Nat → Str → Str
  | 0, _ => []
  | _, [] => []
  | fuel + 1, c :: cs =>
    if c = '%' then
      match directive cs with
      | (out, none) => out
      | (out, some rest) => out ++ doPrintf fuel rest
    else c :: doPrintf fuel cs

/-- What `fmt.Fprintf(w, format)`, a call without operands, writes. -/
def Fprintf (format : Str) : Str := doPrintf format.length format

/-- The text `fmt.Sprintf(_blocked, host, url)`: the constant `_blocked` of dnsblock
with `host` in the place of each `%[1]s` and `url` in the place of each
`%[2]s`. -/
def blocked (host url : Str) : Str :=
  "<html><head><title> dnsblock ".toList ++ host ++ "</title></head><body>\n".toList ++
  "<p>dnsblock blocked access to <code>".toList ++ host ++
  "</code>. Unblock this domain for:</p>\n".toList ++
  "<ul><li><a href=\"/$@_allow/10s/".toList ++ url ++ "\">ten seconds</a></li>\n".toList ++
  "<li><a href=\"/$@_allow/1h/".toList ++ url ++ "\">an hour</a></li>\n".toList ++
  "<li><a href=\"/$@_allow/1d/".toList ++ url ++ "\">a day</a></li>\n".toList ++
  "<li><a href=\"/$@_allow/10y/".toList ++ url ++
  "\">until restart</a></li></ul></body></html>".toList

/-- Modelled from the spec: `tplBlocked` of package srvhttp is not among the
sources; the block notice is a small HTML document with four unblock links
(10 seconds, 1 hour, 1 day, 10 years) pointing at
`/$@_allow/<duration>/<original-url>`.  The text is
`fmt.Sprintf(tplBlocked, host, url)`. -/
def tplBlocked (host url : Str) : Str :=
  "<html><head><title> trackwall ".toList ++ host ++ "</title></head><body>\n".toList ++
  "<p>trackwall blocked access to <code>".toList ++ host ++
  "</code>. Unblock this domain for:</p>\n".toList ++
  "<ul><li><a href=\"/$@_allow/10s/".toList ++ url ++ "\">ten seconds</a></li>\n".toList ++
  "<li><a href=\"/$@_allow/1h/".toList ++ url ++ "\">an hour</a></li>\n".toList ++
  "<li><a href=\"/$@_allow/1d/".toList ++ url ++ "\">a day</a></li>\n".toList ++
  "<li><a href=\"/$@_allow/10y/".toList ++ url ++
  "\">until restart</a></li></ul></body></html>".toList

/-! ## Durations -/

/-- A decimal number: one or more digits. -/
def parseNumber (s : Str) : Option Nat :=
  if s ≠ [] ∧ s.all Char.isDigit then
    some (s.foldl (fun n c => 10 * n + (c.toNat - '0'.toNat)) 0)
  else none

/-- The seconds in a unit of the duration syntax. -/
def unitSeconds (c : Char) : Option Nat :=
  if c = 's' then some 1
  else if c = 'm' then some 60
  else if c = 'h' then some 3600
  else if c = 'd' then some 86400
  else if c = 'w' then some 604800
  else if c = 'y' then some 31536000
  else none

/-- Modelled from the spec: `durationToSeconds` (`msg.DurationToSeconds` in
srvhttp) is not among the sources.  Duration syntax: `<number><unit>` where
unit is one of `s`, `m`, `h`, `d`, `w`, `y`, giving seconds using
60/3600/86400/604800/31536000; a bare integer is seconds; invalid input is
an error. -/
def durationToSeconds (s : Str) : Except Str Int :=
  match parseNumber s with
  | some n => .ok n
  | none =>
    match s.getLast?.bind unitSeconds, parseNumber s.dropLast with
    | some u, some n => .ok (n * u)
    | _, _ => .error ("invalid duration: ".toList ++ s)

/-! ## The HTTP handlers -/

/-- What a handler did to its `http.ResponseWriter`: the status (200 unless
`WriteHeader` is called), the headers it set, and the body written. -/
structure Response where
  status : Nat
  cacheControl : Option Str
  contentType : Option Str
  location : Option Str
  body : Str
deriving DecidableEq, Repr

/-- A fresh `http.ResponseWriter`. -/
def Response.new : Response := ⟨200, none, none, none, []⟩

/-- A map with string keys that is only read and written at single keys. -/
abbrev KeyMap (β : Type) := Str → Option β

/-- The assignment `m[k] = v`. -/
def KeyMap.store {β : Type} (m : KeyMap β) (k : Str) (v : β) : KeyMap β :=
  fun x => if x = k then some v else m x

/-- The statement `delete(m, k)`. -/
def KeyMap.delete {β : Type} (m : KeyMap β) (k : Str) : KeyMap β :=
  fun x => if x = k then none else m x

/-- The maps the control handler writes: `_override_hosts`, from hosts to
deadlines in seconds since the epoch, and the DNS cache `_cache`. -/
structure Store (β : Type) where
  override : KeyMap Int
  cache : KeyMap β

/-- Modelled from the spec: `cfg.Override.Store` of trackwall is not among
the sources; `Override.Allow(host, seconds)` sets the deadline of the host
and leaves the other entries. -/
def OverrideStore (m : KeyMap Int) (host : Str) (deadline : Int) : KeyMap Int :=
  m.store host deadline

/-- Modelled from the spec: `srvdns.Cache.Delete` of trackwall is not among
the sources; `DNSCache.Delete(keys…)` removes the keys it is given. -/
def CacheDelete {β : Type} (m : KeyMap β) (ks : List Str) : KeyMap β :=
  ks.foldl KeyMap.delete m

namespace dnsblock

/-- The method `handleHttp.handleHttpSpecial` at the time `now` (nanoseconds since the
epoch); `dur` is `durationToSeconds`, which is not among the sources; `none`
is a run-time panic (index out of range). -/
def handleHttpSpecial {β : Type} (dur : Str → Except Str Int) (now : Int) (st : Store β)
    (w : Response) (host url : Str) : Option (Store β × Response) :=
  if HasPrefix url "$@_allow".toList then
    let params := Split '/' url
    match params[1]? with
    | none => none
    | some p1 =>
      match dur p1 with
      | .error _ => some (st, w)
      | .ok secs =>
        let override := st.override.store host (addSeconds now secs)
        let cache := (st.cache.delete ("A ".toList ++ host)).delete ("AAAA ".toList ++ host)
        let w := { w with location := some ("/".toList ++ Join "/".toList (params.drop 2)) }
        some (⟨override, cache⟩, { w with status := 303 })
  else
    some (st, { w with body := w.body ++ ("unknown command: ".toList ++ url) })

/-- The method `handleHttp.ServeHTTP` for a request with `r.Host = rHost` and
`r.URL.Path = path`. -/
def ServeHTTP {β : Type} (lib : RegexpLib) (g : Globals lib) (dur : Str → Except Str Int)
    (now : Int) (st : Store β) (rHost path : Str) : Option (Store β × Response) :=
  let w := { Response.new with
    cacheControl := some "private, max-age=0, no-cache, must-revalidate".toList }
  let host := EscapeString rHost
  let url := EscapeString (TrimLeftSlash path)
  if HasPrefix url "$@_".toList then handleHttpSpecial dur now st w host url
  else
    let (sur, success) := findSurrogate lib g host
    if success then
      some (st, { w with
        contentType := some "application/javascript".toList
        body := w.body ++ Fprintf sur })
    else if HasSuffix url ".js".toList then
      some (st, { w with
        contentType := some "application/javascript".toList
        body := w.body ++ Fprintf ("/*".toList ++ blocked host url ++ "*/".toList) })
    else
      some (st, { w with
        contentType := some "text/html".toList
        body := w.body ++ Fprintf (blocked host url) })

end dnsblock

namespace srvhttp

/-- The method `handleHTTP.spoof`; `find` is `cfg.Surrogates.Find` and `tpl host url`
the text `fmt.Sprintf(tplBlocked, host, url)`, neither among the sources. -/
def spoof (find : Str → Str × Bool) (tpl : Str → Str → Str) (w : Response)
    (host url : Str) : Response :=
  let (sur, success) := find host
  if success then
    { w with
      contentType := some "application/javascript".toList
      body := w.body ++ Fprintf sur }
  else if HasSuffix url ".js".toList then
    { w with
      contentType := some "application/javascript".toList
      body := w.body ++ Fprintf ("/*".toList ++ tpl host url ++ "*/".toList) }
  else
    { w with
      contentType := some "text/html".toList
      body := w.body ++ Fprintf ("/*".toList ++ tpl host url ++ "*/".toList) }

/-- The method `handleHTTP.special` at the time `now`; `dur` is `msg.DurationToSeconds`,
which is not among the sources; `none` is a run-time panic. -/
def special {β : Type} (dur : Str → Except Str Int) (now : Int) (st : Store β)
    (w : Response) (host url : Str) : Option (Store β × Response) :=
  if HasPrefix url "$@_allow".toList then
    let params := Split '/' url
    match params[1]? with
    | none => none
    | some p1 =>
      match dur p1 with
      | .error _ => some (st, w)
      | .ok secs =>
        let override := OverrideStore st.override host (addSeconds now secs)
        let cache := CacheDelete st.cache ["A ".toList ++ host, "AAAA ".toList ++ host]
        let w := { w with location := some ("/".toList ++ Join "/".toList (params.drop 2)) }
        some (⟨override, cache⟩, { w with status := 303 })
  else
    some (st, { w with body := w.body ++ ("unknown command: ".toList ++ url) })

/-- The method `handleHTTP.ServeHTTP`. -/
def ServeHTTP {β : Type} (find : Str → Str × Bool) (tpl : Str → Str → Str)
    (dur : Str → Except Str Int) (now : Int) (st : Store β) (rHost path : Str) :
    Option (Store β × Response) :=
  let w := { Response.new with
    cacheControl := some "private, max-age=0, no-cache, must-revalidate".toList }
  let host := EscapeString rHost
  let url := EscapeString (TrimLeftSlash path)
  if HasPrefix url "$@_".toList then special dur now st w host url
  else some (st, spoof find tpl w host url)

end srvhttp

/-! ## findResolver -/

/-- How a call ends: with a value, with an error that it returns, or in a
run-time panic. -/
inductive Run (α : Type) where
  | ok (a : α)
  | error (e : Str)
  | panic
deriving DecidableEq, Repr

/-- The file system as `getCert` sees it: the content of the files that
exist, the directories that `os.MkdirAll` made, and the paths at which
`os.Create` fails. -/
structure Disk where
  files : Str → Option Str
  dirs : List Str
  locked : Str → Bool

/-- The file at `path` written with `content`. -/
def Disk.write (d : Disk) (path content : Str) : Disk :=
  { d with files := fun p => if p = path then some content else d.files p }

/-- The calls of `crypto/rsa`, `crypto/x509`, `encoding/pem` and `crypto/tls`
in `getCert`; what `rand.Reader` and the clock give is part of them. -/
structure CertLib where
  /-- The type `tls.Certificate` -/
  Certificate : Type
  /-- Go's `rsa.GenerateKey(rand.Reader, 2048)`: the PEM text that is written
  for the key, or the error -/
  GenerateKey : Except Str Str
  /-- The block that makes the request: its PEM text for the server name and
  the content of the key file; `none` when `pem.Decode` finds no block in
  the key file and the code dereferences nil -/
  CreateCertificateRequest : Str → Option Str → Option Str
  /-- The block that makes the leaf certificate for the server name from the
  contents of the root certificate file and of the root key file: its PEM
  text, the error it returns, or a nil dereference -/
  CreateCertificate : Str → Option Str → Option Str → Run Str
  /-- Go's `tls.LoadX509KeyPair(certFile, keyFile)` on the contents of the
  two files -/
  LoadX509KeyPair : Option Str → Option Str → Except Str Certificate

/-- The block `if _, err := os.Stat(keyfile); os.IsNotExist(err)` of
`getCert`. -/
def makeKey (lib : CertLib) (d : Disk) (keyfile : Str) : Run Disk :=
  if (d.files keyfile).isNone then
    match lib.GenerateKey with
    | .error e => .error e
    | .ok pem =>
      if d.locked keyfile then .error ("open ".toList ++ keyfile)
      else .ok (d.write keyfile pem)
  else .ok d

/-- The block `if _, err := os.Stat(csrfile); os.IsNotExist(err)` of
`getCert`. -/
def makeCsr (lib : CertLib) (d : Disk) (name keyfile csrfile : Str) : Run Disk :=
  if (d.files csrfile).isNone then
    match lib.CreateCertificateRequest name (d.files keyfile) with
    | none => .panic
    | some pem =>
      if d.locked csrfile then .error ("open ".toList ++ csrfile)
      else .ok (d.write csrfile pem)
  else .ok d

/-- The block `if _, err := os.Stat(certfile); os.IsNotExist(err)` of
`getCert`; `rootCert` and `rootKey` are `_config.root_cert` and
`_config.root_key`. -/
def makeCert (lib : CertLib) (rootCert rootKey : Str) (d : Disk) (name certfile : Str) :
    Run Disk :=
  if (d.files certfile).isNone then
    match lib.CreateCertificate name (d.files rootCert) (d.files rootKey) with
    | .panic => .panic
    | .error e => .error e
    | .ok pem =>
      if d.locked certfile then .error ("open ".toList ++ certfile)
      else .ok (d.write certfile pem)
  else .ok d

/-- The function `getCert` for the server name of the client hello: how the
call ends and the file system it leaves. -/
def getCert (lib : CertLib) (rootCert rootKey : Str) (d : Disk) (name : Str) :
    Run lib.Certificate × Disk :=
  if name = [] then (.error "no ServerName".toList, d)
  else
    let d := { d with
      dirs := if "/cache/certs".toList ∈ d.dirs then d.dirs
        else d.dirs ++ ["/cache/certs".toList] }
    let keyfile := "/cache/certs/".toList ++ name ++ ".key".toList
    let csrfile := "/cache/certs/".toList ++ name ++ ".csr".toList
    let certfile := "/cache/certs/".toList ++ name ++ ".crt".toList
    match makeKey lib d keyfile with
    | .panic => (.panic, d)
    | .error e => (.error e, d)
    | .ok d =>
      match makeCsr lib d name keyfile csrfile with
      | .panic => (.panic, d)
      | .error e => (.error e, d)
      | .ok d =>
        match makeCert lib rootCert rootKey d name certfile with
        | .panic => (.panic, d)
        | .error e => (.error e, d)
        | .ok d =>
          match lib.LoadX509KeyPair (d.files certfile) (d.files rootKey) with
          | .error e => (.error e, d)
          | .ok cert => (.ok cert, d)

/-! ## Predicates of the statements -/

/-- The line, trimmed, begins with `nameserver`. -/
def isNameserver (raw : Str) : Bool := HasPrefix (TrimSpace raw) "nameserver".toList

/-- The line is a nameserver line that `findResolver` does not skip: it does
not end with the listen host. -/
def usable (listenHost raw : Str) : Bool :=
  isNameserver raw && !HasSuffix (TrimSpace raw) listenHost

/-- The values that `c` takes in the loop over the labels in `compile`, for
the labels `rest` still to be prepended and the value `c` so far. -/
def suffixesTried : List Str → Str → List Str
  | [], _ => []
  | lab :: rest, c =>
    let c := if c = [] then lab else lab ++ ".".toList ++ c
    c :: suffixesTried rest c

/-- The label suffixes of a host `l₀.l₁.….lₙ₋₁` in the words of the spec:
`lₙ₋₁`, `lₙ₋₂.lₙ₋₁`, …, `l₀.….lₙ₋₁`. -/
def labelSuffixes (name : Str) : List Str :=
  (((Split '.' name).tails.filter (fun t => !t.isEmpty)).map (Join ".".toList)).reverse

/-- A linear scan of the surrogate list alone: the script of the first
registered surrogate whose pattern matches the host. -/
def linearScan (lib : RegexpLib) (surrogates : List (lib.Regexp × Str)) (host : Str) :
    Str × Bool :=
  match surrogates.find? (fun s => lib.MatchString s.1 host) with
  | some s => (s.2, true)
  | none => ([], false)

/-- The text `l` has no occurrence of `@@`. -/
def NoAtAt (l : Str) : Prop := ∀ a b : Str, l ≠ a ++ '@' :: '@' :: b

/-! ## Stand-ins for the examples -/

/-- A small stand-in for package `regexp` in the examples: a pattern is a
text and matches the hosts that begin with it. -/
def prefixLib : RegexpLib := ⟨Str, some, fun r h => r.isPrefixOf h, id⟩

/-- A configuration without lists, hosts or surrogates that keeps caches
for an hour. -/
def plainConfig : ConfigT := ⟨3600, [], [], [], [], [], [], [], [], []⟩

/-- An outside where `/cache/compiled` holds `data` and was written one
second ago. -/
def freshOutside (data : Str) : Outside :=
  ⟨1700000000000000000, some (1699999999000000000, data), fun _ => []⟩

/-- An empty override map and an empty DNS cache. -/
def noStore : Store Unit := ⟨fun _ => none, fun _ => none⟩

/-- The host `ads.site` and `b.org` blocked, without surrogates. -/
def adsGlobals : Globals prefixLib :=
  ⟨[("ads.site".toList, []), ("b.org".toList, "old()".toList)], [], []⟩

/-- The host `ads.site` blocked, with a surrogate body that takes a
remainder. -/
def remainderGlobals : Globals prefixLib :=
  ⟨[("ads.site".toList, "var r=n%m;".toList)], [], []⟩

/-- A configuration with a host list, an unhost, a regexp and a surrogate. -/
def busyConfig : ConfigT :=
  ⟨3600, [("hosts".toList, "http://lists.example/hosts".toList)], [], [], [],
    ["c.net".toList], ["b.org".toList], ["^ads".toList], [],
    [("ads.".toList, "window.ads=1;".toList)]⟩

/-- A stand-in for the crypto packages in the examples: the texts are
labels, and a loaded pair is the two file contents it was loaded from. -/
def labelCertLib : CertLib :=
  ⟨Option Str × Option Str, .ok "KEY".toList,
    fun name key => key.map (fun k => "CSR ".toList ++ name ++ " ".toList ++ k),
    fun name cert key =>
      match cert, key with
      | some _, some _ => .ok ("CRT ".toList ++ name)
      | _, _ => .panic,
    fun cert key => .ok (cert, key)⟩

/-- A file system that holds the root certificate and the root key and
nothing else. -/
def rootDisk : Disk :=
  ⟨fun p =>
      if p = "/etc/trackwall/root.crt".toList then some "ROOT CERT".toList
      else if p = "/etc/trackwall/root.key".toList then some "ROOT KEY".toList
      else none,
    [], fun _ => false⟩

/-! ## Facts about the string functions -/

theorem replaceGo_zero (old new s : Str) : replaceGo old new 0 0 s = s := by
  induction s with
  | nil => rfl
  | cons c cs ih => simp [replaceGo, ih]

theorem replaceGo_skip (old new : Str) (n k : Nat) (s : Str) :
    replaceGo old new n k s = replaceGo old new n 0 (s.drop k) := by
  induction k generalizing s with
  | zero => simp
  | succ k ih =>
    cases s with
    | nil => simp [replaceGo]
    | cons c cs => simp [replaceGo, ih]

/-- Removing the first `www.` of a name that starts with it leaves the rest
of the name. -/
theorem Replace_www (rest : Str) :
    Replace ("www.".toList ++ rest) "www.".toList [] 1 = rest := by
  show replaceGo _ _ 1 0 ('w' :: 'w' :: 'w' :: '.' :: rest) = rest
  simp [replaceGo, replaceGo_zero]

theorem HasPrefix_iff (s p : Str) : HasPrefix s p = true ↔ ∃ t, s = p ++ t := by
  unfold HasPrefix
  rw [List.isPrefixOf_iff_prefix]
  constructor
  · rintro ⟨t, rfl⟩; exact ⟨t, rfl⟩
  · rintro ⟨t, rfl⟩; exact ⟨t, rfl⟩

/-- The name `addHost` works with after its first statement. -/
theorem addHost_name (name : Str) :
    (if HasPrefix name "www.".toList then Replace name "www.".toList [] 1 else name) =
      if HasPrefix name "www.".toList then name.drop 4 else name := by
  split
  · next h =>
    obtain ⟨t, rfl⟩ := (HasPrefix_iff _ _).1 h
    rw [Replace_www]; rfl
  · rfl

/-! ## Facts about the host map -/

theorem has_iff (m : HostMap) (k : Str) : has m k = true ↔ k ∈ keys m := by
  simp only [has, keys, List.any_eq_true, List.mem_map, beq_iff_eq]

theorem has_eq_false_iff (m : HostMap) (k : Str) : has m k = false ↔ k ∉ keys m := by
  rw [← has_iff]; simp

theorem keys_set (m : HostMap) (k v : Str) :
    keys (set m k v) = if has m k then keys m else keys m ++ [k] := by
  unfold set
  split
  · simp only [keys, List.map_map]
    apply List.map_congr_left
    intro e _
    by_cases h : e.1 = k <;> simp [h]
  · simp [keys]

theorem keys_del (m : HostMap) (k : Str) : keys (del m k) = (keys m).filter (fun x => !(x == k)) := by
  simp only [keys, del, List.filter_map]
  rfl

theorem addHost_eq (hosts : HostMap) (name : Str) :
    addHost hosts name =
      if (if HasPrefix name "www.".toList then name.drop 4 else name) = [] ∨
          (if HasPrefix name "www.".toList then name.drop 4 else name) ∈ keys hosts
      then hosts
      else hosts ++ [(if HasPrefix name "www.".toList then name.drop 4 else name, [])] := by
  unfold addHost
  rw [addHost_name]
  generalize (if HasPrefix name "www.".toList then name.drop 4 else name) = n
  by_cases h1 : n = []
  · simp [h1]
  · by_cases h2 : n ∈ keys hosts
    · simp [h1, h2, (has_iff _ _).2 h2]
    · have h3 := (has_eq_false_iff _ _).2 h2
      simp [h1, h2, h3, set]

/-! ## Facts about Split, Join and the scanner -/

theorem Split_ne_nil (sep : Char) (s : Str) : Split sep s ≠ [] := by
  cases s with
  | nil => simp [Split]
  | cons c cs =>
    unfold Split
    split
    · simp
    · split <;> simp

theorem Split_append_sep (sep : Char) (a b : Str) (h : sep ∉ a) :
    Split sep (a ++ sep :: b) = a :: Split sep b := by
  induction a with
  | nil => simp [Split]
  | cons c cs ih =>
    have hc : c ≠ sep := fun e => h (e ▸ List.mem_cons_self _ _)
    have hcs : sep ∉ cs := fun e => h (List.mem_cons_of_mem _ e)
    simp [Split, hc, ih hcs]

theorem Join_cons (sep a : Str) (ps : List Str) (h : ps ≠ []) :
    Join sep (a :: ps) = a ++ sep ++ Join sep ps := by
  cases ps with
  | nil => exact absurd rfl h
  | cons b rest => rfl

theorem Join_Split (sep : Char) (s : Str) : Join [sep] (Split sep s) = s := by
  induction s with
  | nil => rfl
  | cons c cs ih =>
    unfold Split
    split
    · next h =>
      rw [Join_cons _ _ _ (Split_ne_nil sep cs), ih, h]; rfl
    · split
      · next h => exact absurd h (Split_ne_nil sep cs)
      · next p ps h =>
        rw [h] at ih
        cases ps with
        | nil => simp only [Join] at ih ⊢; rw [ih]
        | cons q qs =>
          simp only [Join] at ih ⊢
          rw [← ih]; simp

theorem Split_compiledFile (written : List Str) (h : ∀ k ∈ written, '\n' ∉ k) :
    Split '\n' (compiledFile written) = written ++ [[]] := by
  induction written with
  | nil => rfl
  | cons k ks ih =>
    have hk : '\n' ∉ k := h k (List.mem_cons_self _ _)
    have hks : ∀ x ∈ ks, '\n' ∉ x := fun x hx => h x (List.mem_cons_of_mem _ hx)
    have e : compiledFile (k :: ks) = k ++ '\n' :: compiledFile ks := by
      simp [compiledFile]
    rw [e, Split_append_sep _ _ _ hk, ih hks]; rfl

theorem dropCR_eq (k : Str) (h : k.getLast? ≠ some '\r') : dropCR k = k := by
  simp [dropCR, h]

/-- The scanner reads back the lines of a file that `compile` wrote when no
key holds a line feed, ends with a carriage return or is as long as the
buffer of the scanner. -/
theorem scanLines_compiledFile (written : List Str)
    (h : ∀ k ∈ written,
      '\n' ∉ k ∧ k.getLast? ≠ some '\r' ∧ byteLength k < MaxScanTokenSize) :
    scanLines (compiledFile written) = written := by
  unfold scanLines
  rw [Split_compiledFile written (fun k hk => (h k hk).1)]
  have e : (written ++ [([] : Str)]).getLast? = some [] := by simp
  show List.map dropCR (List.takeWhile (fun l => byteLength l < MaxScanTokenSize)
    (if (written ++ [([] : Str)]).getLast? = some [] then
      (written ++ [([] : Str)]).dropLast else written ++ [([] : Str)])) = written
  rw [e, if_pos rfl, List.dropLast_concat]
  have ht : written.takeWhile (fun l => byteLength l < MaxScanTokenSize) = written := by
    rw [List.takeWhile_eq_self_iff]
    intro k hk
    simpa using (h k hk).2.2
  rw [ht]
  calc written.map dropCR = written.map id :=
        List.map_congr_left (fun k hk => dropCR_eq k (h k hk).2.1)
    _ = written := List.map_id _

/-- The scanner reads nothing of a file whose first line is as long as its
buffer. -/
theorem scanLines_long_first (k : Str) (rest : List Str) (hnl : '\n' ∉ k)
    (hlen : MaxScanTokenSize ≤ byteLength k) :
    scanLines (compiledFile (k :: rest)) = [] := by
  unfold scanLines
  have e : compiledFile (k :: rest) = k ++ '\n' :: compiledFile rest := by
    simp [compiledFile]
  rw [e, Split_append_sep _ _ _ hnl]
  have hk : decide (byteLength k < MaxScanTokenSize) = false := by
    simpa using hlen
  have hs := Split_ne_nil '\n' (compiledFile rest)
  show List.map dropCR (List.takeWhile (fun l => decide (byteLength l < MaxScanTokenSize))
    (if (k :: Split '\n' (compiledFile rest)).getLast? = some [] then
      (k :: Split '\n' (compiledFile rest)).dropLast
      else k :: Split '\n' (compiledFile rest))) = []
  obtain ⟨p, ps, hp⟩ := List.exists_cons_of_ne_nil hs
  rw [hp]
  split
  · rw [List.dropLast_cons₂, List.takeWhile_cons, hk]; rfl
  · rw [List.takeWhile_cons, hk]; rfl

/-! ## Facts about compile -/

theorem keys_evictLoop (name : Str) (visit : List Str) (m : HostMap) :
    (keys (evictLoop name visit m)).Sublist (keys m) := by
  induction visit generalizing m with
  | nil => exact List.Sublist.refl _
  | cons host rest ih =>
    unfold evictLoop
    split
    · refine (ih _).trans ?_
      rw [keys_del]; exact List.filter_sublist _
    · exact ih m

theorem keys_compileStep (m : HostMap) (name : Str) (hm : (keys m).Nodup) :
    (keys (compileStep m name)).Nodup ∧
    ∀ k ∈ keys (compileStep m name), k ∈ keys m ∨ k = name := by
  unfold compileStep
  split
  · exact ⟨hm, fun k hk => Or.inl hk⟩
  · have hs := keys_evictLoop name (keys m) m
    rw [keys_set]
    split
    · exact ⟨hm.sublist hs, fun k hk => Or.inl (hs.subset hk)⟩
    · next hn =>
      have hn2 := (has_eq_false_iff _ _).1 (by simpa using hn)
      constructor
      · rw [List.nodup_append]
        refine ⟨hm.sublist hs, List.nodup_singleton _, ?_⟩
        intro a ha hb
        rw [List.mem_singleton] at hb
        exact hn2 (hb ▸ ha)
      · intro k hk
        rcases List.mem_append.1 hk with h | h
        · exact Or.inl (hs.subset h)
        · exact Or.inr (List.mem_singleton.1 h)

theorem keys_foldl_compileStep (order : List Str) (m : HostMap) (hm : (keys m).Nodup) :
    (keys (order.foldl compileStep m)).Nodup ∧
    ∀ k ∈ keys (order.foldl compileStep m), k ∈ keys m ∨ k ∈ order := by
  induction order generalizing m with
  | nil => exact ⟨hm, fun k hk => Or.inl hk⟩
  | cons name rest ih =>
    have h1 := keys_compileStep m name hm
    have h2 := ih (compileStep m name) h1.1
    refine ⟨h2.1, fun k hk => ?_⟩
    rcases h2.2 k hk with h | h
    · rcases h1.2 k h with h | h
      · exact Or.inl h
      · exact Or.inr (h ▸ List.mem_cons_self _ _)
    · exact Or.inr (List.mem_cons_of_mem _ h)

/-- The output set of `compile` has no key twice and only keys it visited. -/
theorem keys_compile (order : List Str) :
    (keys (compile order)).Nodup ∧ ∀ k ∈ keys (compile order), k ∈ order := by
  have h := keys_foldl_compileStep order [] List.nodup_nil
  refine ⟨h.1, fun k hk => ?_⟩
  rcases h.2 k hk with h | h
  · exact absurd h (List.not_mem_nil _)
  · exact h

/-! ## Facts about addHost over a list of names -/

theorem keys_addHost_ne_nil (hosts : HostMap) (name : Str) (h : ∀ k ∈ keys hosts, k ≠ []) :
    ∀ k ∈ keys (addHost hosts name), k ≠ [] := by
  rw [addHost_eq]
  generalize (if HasPrefix name "www.".toList then name.drop 4 else name) = n
  by_cases hn : n = [] ∨ n ∈ keys hosts
  · rw [if_pos hn]; exact h
  · rw [if_neg hn]
    rw [not_or] at hn
    intro k hk
    simp only [keys, List.map_append, List.map_cons, List.map_nil, List.mem_append,
      List.mem_singleton] at hk
    rcases hk with hk | hk
    · exact h k hk
    · exact hk ▸ hn.1

theorem keys_foldl_addHost_ne_nil (names : List Str) (hosts : HostMap)
    (h : ∀ k ∈ keys hosts, k ≠ []) : ∀ k ∈ keys (names.foldl addHost hosts), k ≠ [] := by
  induction names generalizing hosts with
  | nil => exact h
  | cons n ns ih => exact ih _ (keys_addHost_ne_nil hosts n h)

/-- Adding names that are new, not empty and without a leading `www.`
appends them in order. -/
theorem foldl_addHost_fresh (lines : List Str) (hosts : HostMap)
    (hnd : lines.Nodup) (hdis : ∀ k ∈ lines, k ∉ keys hosts)
    (hok : ∀ k ∈ lines, k ≠ [] ∧ HasPrefix k "www.".toList = false) :
    lines.foldl addHost hosts = hosts ++ lines.map (fun k => (k, [])) := by
  induction lines generalizing hosts with
  | nil => simp
  | cons k ks ih =>
    have hk := hok k (List.mem_cons_self _ _)
    have hstep : addHost hosts k = hosts ++ [(k, [])] := by
      rw [addHost_eq]
      have e : (if HasPrefix k "www.".toList then k.drop 4 else k) = k := by
        rw [hk.2]; rfl
      rw [e, if_neg]
      rw [not_or]
      exact ⟨hk.1, hdis k (List.mem_cons_self _ _)⟩
    rw [List.foldl_cons, hstep, ih]
    · simp
    · exact (List.nodup_cons.1 hnd).2
    · intro x hx hmem
      simp only [keys, List.map_append, List.map_cons, List.map_nil, List.mem_append,
        List.mem_singleton] at hmem
      rcases hmem with h | h
      · exact hdis x (List.mem_cons_of_mem _ hx) h
      · exact (List.nodup_cons.1 hnd).1 (h ▸ hx)
    · exact fun x hx => hok x (List.mem_cons_of_mem _ hx)

theorem forEach_addHost (lib : RegexpLib) (lines : List Str) (g : Globals lib) :
    forEach (fun (g : Globals lib) v => Except.ok { g with hosts := addHost g.hosts v })
      lines g = .ok { g with hosts := lines.foldl addHost g.hosts } := by
  induction lines generalizing g with
  | nil => rfl
  | cons l ls ih => simp only [forEach, List.foldl_cons]; rw [ih]

/-! ## Facts about TrimSpace and loadList -/

theorem NoAtAt_cons (c : Char) (l : Str) (h : NoAtAt l)
    (hc : ¬ (c = '@' ∧ l.head? = some '@')) : NoAtAt (c :: l) := by
  intro a b e
  cases a with
  | nil =>
    simp only [List.nil_append, List.cons.injEq] at e
    exact hc ⟨e.1, by rw [e.2]; rfl⟩
  | cons x a =>
    simp only [List.cons_append, List.cons.injEq] at e
    exact h a b e.2

theorem NoAtAt_append (new l : Str) (hnew : '@' ∉ new) (h : NoAtAt l) : NoAtAt (new ++ l) := by
  induction new with
  | nil => exact h
  | cons c cs ih =>
    have hc : c ≠ '@' := fun e => hnew (e ▸ List.mem_cons_self _ _)
    exact NoAtAt_cons c _ (ih (fun e => hnew (List.mem_cons_of_mem _ e))) (fun e => hc e.1)

theorem replaceGo_atat (new rest : Str) (n : Nat) :
    replaceGo "@@".toList new (n + 1) 0 ('@' :: '@' :: rest) =
      new ++ replaceGo "@@".toList new n 0 rest := by
  show (if "@@".toList.isPrefixOf ('@' :: '@' :: rest) then
      new ++ replaceGo "@@".toList new n ("@@".toList.length - 1) ('@' :: rest)
    else '@' :: replaceGo "@@".toList new (n + 1) 0 ('@' :: rest)) = _
  rw [if_pos (by simp [List.isPrefixOf]), show "@@".toList.length - 1 = 1 from rfl,
    replaceGo_skip]
  rfl

theorem replaceGo_other (new : Str) (c : Char) (cs : Str) (n : Nat)
    (h : ¬ (c = '@' ∧ cs.head? = some '@')) :
    replaceGo "@@".toList new (n + 1) 0 (c :: cs) =
      c :: replaceGo "@@".toList new (n + 1) 0 cs := by
  show (if "@@".toList.isPrefixOf (c :: cs) then
      new ++ replaceGo "@@".toList new n ("@@".toList.length - 1) cs
    else c :: replaceGo "@@".toList new (n + 1) 0 cs) = _
  rw [if_neg]
  intro hp
  rw [List.isPrefixOf_iff_prefix] at hp
  obtain ⟨t, ht⟩ := hp
  simp only [String.toList, List.cons_append, List.nil_append, List.cons.injEq] at ht
  exact h ⟨ht.1.symm, by rw [← ht.2]; rfl⟩

theorem replaceGo_leaves_none (new : Str) (hnew : '@' ∉ new) (hne : new ≠ []) (k : Nat) :
    ∀ (s : Str) (n : Nat), s.length ≤ k → s.length ≤ n →
      NoAtAt (replaceGo "@@".toList new n 0 s) ∧
      ((replaceGo "@@".toList new n 0 s).head? = some '@' → s.head? = some '@') := by
  induction k with
  | zero =>
    intro s n hk _
    have : s = [] := List.length_eq_zero.1 (Nat.le_zero.1 hk)
    subst this
    refine ⟨?_, fun h => ?_⟩
    · intro a b e
      cases a <;> simp [replaceGo] at e
    · simp [replaceGo] at h
  | succ k ih =>
    intro s n hk hn
    cases s with
    | nil =>
      refine ⟨?_, fun h => ?_⟩
      · intro a b e
        cases a <;> simp [replaceGo] at e
      · simp [replaceGo] at h
    | cons c cs =>
      cases n with
      | zero => simp at hn
      | succ n =>
        by_cases hcc : c = '@' ∧ cs.head? = some '@'
        · obtain ⟨rfl, hh⟩ := hcc
          cases cs with
          | nil => simp at hh
          | cons d rest =>
            simp only [List.head?_cons, Option.some.injEq] at hh
            subst hh
            rw [replaceGo_atat]
            have h := ih rest n (by simp at hk; omega) (by simp at hn; omega)
            refine ⟨NoAtAt_append new _ hnew h.1, fun hd => ?_⟩
            cases new with
            | nil => exact absurd rfl hne
            | cons x xs =>
              simp only [List.cons_append, List.head?_cons, Option.some.injEq] at hd
              exact absurd (hd ▸ List.mem_cons_self _ _) hnew
        · rw [replaceGo_other new c cs n hcc]
          have h := ih cs (n + 1) (by simp at hk; omega) (by simp at hn; omega)
          refine ⟨NoAtAt_cons c _ h.1 (fun e => hcc ⟨e.1, h.2 e.2⟩), fun hd => ?_⟩
          simpa using hd

/-- After `strings.Replace(sur, "@@", "function()\x7b\x7d", -1)` no `@@` is
left. -/
theorem Replace_leaves_none (sur : Str) :
    NoAtAt (Replace sur "@@".toList "function()\x7b\x7d".toList (-1)) :=
  (replaceGo_leaves_none "function()\x7b\x7d".toList (by decide) (by decide) sur.length sur
    sur.length (Nat.le_refl _) (Nat.le_refl _)).1

/-! ## Facts about compileSurrogate -/

theorem lookup_cons_eq (x a b : Str) (rest : HostMap) :
    List.lookup x ((a, b) :: rest) = if x = a then some b else List.lookup x rest := by
  by_cases h : x = a
  · subst h; simp [List.lookup]
  · have : (x == a) = false := by simp [h]
    simp [List.lookup, this, h]

theorem get_map_update (m : HostMap) (k v x : Str) :
    get (m.map (fun e => if e.1 == k then (e.1, v) else e)) x =
      if x = k ∧ x ∈ keys m then v else get m x := by
  induction m with
  | nil => simp [get, keys]
  | cons e rest ih =>
    obtain ⟨a, b⟩ := e
    unfold get at ih ⊢
    have hkeys : keys ((a, b) :: rest) = a :: keys rest := rfl
    rw [List.map_cons, hkeys]
    by_cases hak : a = k
    · subst hak
      have e1 : (if ((a, b) : Str × Str).1 == a then (((a, b) : Str × Str).1, v) else (a, b)) =
          (a, v) := by simp
      rw [e1, lookup_cons_eq, lookup_cons_eq]
      by_cases hxa : x = a
      · subst hxa; simp
      · rw [if_neg hxa, if_neg hxa, ih]
        simp [hxa]
    · have e1 : (if ((a, b) : Str × Str).1 == k then (((a, b) : Str × Str).1, v) else (a, b)) =
          (a, b) := by simp [hak]
      rw [e1, lookup_cons_eq, lookup_cons_eq]
      by_cases hxa : x = a
      · subst hxa; simp [hak]
      · rw [if_neg hxa, if_neg hxa, ih]
        simp [hxa]

theorem get_set_of_mem (m : HostMap) (k v x : Str) (hk : k ∈ keys m) :
    get (set m k v) x = if x = k then v else get m x := by
  unfold set
  rw [if_pos ((has_iff _ _).2 hk), get_map_update]
  by_cases h : x = k
  · subst h; simp [hk]
  · simp [h]

theorem keys_set_of_mem (m : HostMap) (k v : Str) (hk : k ∈ keys m) :
    keys (set m k v) = keys m := by
  rw [keys_set, if_pos ((has_iff _ _).2 hk)]

/-- The loop of `compileSurrogate` over hosts of the map: the keys stay, a
visited host that matches gets the script, every other host keeps its
value. -/
theorem surrogateLoop_spec (isMatch : Str → Bool) (sur : Str) (visit : List Str) (m : HostMap)
    (hv : ∀ h ∈ visit, h ∈ keys m) :
    keys (surrogateLoop isMatch sur visit m) = keys m ∧
    ∀ x, get (surrogateLoop isMatch sur visit m) x =
      if isMatch x = true ∧ x ∈ visit then sur else get m x := by
  induction visit generalizing m with
  | nil => simp [surrogateLoop]
  | cons host rest ih =>
    have hhost : host ∈ keys m := hv host (List.mem_cons_self _ _)
    unfold surrogateLoop
    by_cases hm : isMatch host = true
    · rw [if_pos hm]
      have hk := keys_set_of_mem m host sur hhost
      have h := ih (set m host sur)
        (fun h hh => hk ▸ hv h (List.mem_cons_of_mem _ hh))
      refine ⟨h.1.trans hk, fun x => ?_⟩
      rw [h.2 x, get_set_of_mem m host sur x hhost]
      by_cases hx : x = host
      · subst hx; simp [hm]
      · simp [hx]
    · rw [if_neg hm]
      have h := ih m (fun h hh => hv h (List.mem_cons_of_mem _ hh))
      refine ⟨h.1, fun x => ?_⟩
      rw [h.2 x]
      by_cases hx : x = host
      · subst hx; simp [hm]
      · simp [hx]

/-! ## Facts about formatting and time -/

theorem doPrintf_no_percent (fuel : Nat) (s : Str) (hf : s.length ≤ fuel) (h : '%' ∉ s) :
    doPrintf fuel s = s := by
  induction s generalizing fuel with
  | nil => cases fuel <;> rfl
  | cons c cs ih =>
    cases fuel with
    | zero => simp at hf
    | succ n =>
      have hc : c ≠ '%' := fun e => h (e ▸ List.mem_cons_self _ _)
      have hcs : '%' ∉ cs := fun e => h (List.mem_cons_of_mem _ e)
      simp only [doPrintf, if_neg hc]
      rw [ih n (by simpa using hf) hcs]

/-- A format without `%` is written as it is. -/
theorem Fprintf_no_percent (s : Str) (h : '%' ∉ s) : Fprintf s = s :=
  doPrintf_no_percent s.length s (Nat.le_refl _) h

theorem wrap64_of_range (x : Int) (h1 : -2 ^ 63 ≤ x) (h2 : x < 2 ^ 63) : wrap64 x = x := by
  unfold wrap64
  rw [Int.emod_eq_of_lt (by omega) (by omega)]
  omega

/-- Without overflow of the duration, the deadline is the second of the
clock plus the seconds. -/
theorem addSeconds_of_range (t secs : Int)
    (h1 : -2 ^ 63 ≤ secs * 1000000000) (h2 : secs * 1000000000 < 2 ^ 63) :
    addSeconds t secs = unix t + secs := by
  unfold addSeconds unix
  rw [wrap64_of_range _ h1 h2]
  exact Int.add_mul_ediv_right t secs (by decide)

/-! ## compile and the suffix invariant -/

/-- C1 (the code breaks the claim): when `compile` visits `s7.addthis.com`
before `addthis.com`, both are in the output set, although the first ends
with `.` followed by the second. -/
theorem compile_keeps_subdomain_visited_first :
    keys (compile ["s7.addthis.com".toList, "addthis.com".toList]) =
      ["s7.addthis.com".toList, "addthis.com".toList] ∧
    "s7.addthis.com".toList = "s7".toList ++ ".".toList ++ "addthis.com".toList ∧
    evictLoop "addthis.com".toList ["s7.addthis.com".toList] [("s7.addthis.com".toList, [])] =
      [("s7.addthis.com".toList, [])] := by
  decide

/-! ## addHost -/

/-- C3 (as stated, refuted): `addHost` inserts `Example.COM.` as it is, with
its uppercase letters and its trailing dot, and for `www.www.a.com` it
inserts `www.a.com`, which begins with `www.`. -/
theorem addHost_key_not_canonical :
    keys (addHost [] "Example.COM.".toList) = ["Example.COM.".toList] ∧
    (∃ c ∈ "Example.COM.".toList, c.isUpper = true) ∧
    "Example.COM.".toList.getLast? = some '.' ∧
    keys (addHost [] "www.www.a.com".toList) = ["www.a.com".toList] ∧
    HasPrefix "www.a.com".toList "www.".toList = true := by
  decide

/-- C3 (amended): a key that `addHost(name)` inserts is `name` without one
leading `www.`; it is not empty, each of its characters is one of `name`, it
has an uppercase letter exactly when `name` has one, it ends with `.`
exactly when `name` does, and it begins with `www.` exactly when `name`
begins with `www.www.`. -/
theorem addHost_inserted_key (hosts : HostMap) (name k : Str)
    (hk : k ∈ keys (addHost hosts name)) (hnew : k ∉ keys hosts) :
    k = (if HasPrefix name "www.".toList then name.drop 4 else name) ∧
    k ≠ [] ∧
    (∀ c ∈ k, c ∈ name) ∧
    ((∃ c ∈ k, c.isUpper = true) ↔ ∃ c ∈ name, c.isUpper = true) ∧
    (k.getLast? = some '.' ↔ name.getLast? = some '.') ∧
    (HasPrefix k "www.".toList = true ↔ HasPrefix name "www.www.".toList = true) := by
  have key : k = (if HasPrefix name "www.".toList then name.drop 4 else name) ∧ k ≠ [] := by
    rw [addHost_eq] at hk
    generalize (if HasPrefix name "www.".toList then name.drop 4 else name) = n at hk ⊢
    by_cases h : n = [] ∨ n ∈ keys hosts
    · rw [if_pos h] at hk; exact absurd hk hnew
    · rw [if_neg h] at hk
      rw [not_or] at h
      simp only [keys, List.map_append, List.map_cons, List.map_nil, List.mem_append,
        List.mem_singleton] at hk
      rcases hk with hk | hk
      · exact absurd hk hnew
      · exact ⟨hk, hk ▸ h.1⟩
  obtain ⟨hk1, hk2⟩ := key
  refine ⟨hk1, hk2, ?_⟩
  by_cases hp : HasPrefix name "www.".toList = true
  · obtain ⟨t, rfl⟩ := (HasPrefix_iff _ _).1 hp
    rw [if_pos hp] at hk1
    have ht : k = t := by rw [hk1]; rfl
    subst ht
    refine ⟨?_, ?_, ?_, ?_⟩
    · intro c hc; exact List.mem_append_right _ hc
    · constructor
      · rintro ⟨c, hc, hu⟩; exact ⟨c, List.mem_append_right _ hc, hu⟩
      · rintro ⟨c, hc, hu⟩
        rcases List.mem_append.1 hc with h | h
        · exfalso
          have : ∀ c ∈ "www.".toList, c.isUpper = false := by decide
          rw [this c h] at hu; exact Bool.noConfusion hu
        · exact ⟨c, h, hu⟩
    · rw [List.getLast?_append_of_ne_nil _ hk2]
    · rw [HasPrefix_iff, HasPrefix_iff]
      constructor
      · rintro ⟨u, rfl⟩; exact ⟨u, rfl⟩
      · rintro ⟨u, hu⟩
        refine ⟨u, ?_⟩
        have : "www.".toList ++ k = "www.".toList ++ ("www.".toList ++ u) := hu
        exact List.append_cancel_left this
  · have hp2 : HasPrefix name "www.www.".toList = false := by
      rw [Bool.eq_false_iff]
      intro h
      obtain ⟨u, rfl⟩ := (HasPrefix_iff _ _).1 h
      exact hp ((HasPrefix_iff _ _).2 ⟨"www.".toList ++ u, rfl⟩)
    rw [if_neg hp] at hk1
    subst hk1
    refine ⟨fun c hc => hc, Iff.rfl, Iff.rfl, ?_⟩
    rw [hp2]
    exact ⟨fun h => absurd h hp, fun h => Bool.noConfusion h⟩

/-- Witness of `addHost_inserted_key`: `www.example.com` added to an empty
host set. -/
theorem addHost_inserted_key_witness :
    "example.com".toList = "www.example.com".toList.drop 4 ∧
    "example.com".toList ≠ [] ∧
    (HasPrefix "example.com".toList "www.".toList = true ↔
      HasPrefix "www.example.com".toList "www.www.".toList = true) :=
  have h := addHost_inserted_key [] "www.example.com".toList "example.com".toList
    (by decide) (by decide)
  ⟨h.1, h.2.1, h.2.2.2.2.2⟩

/-- C4: `addHost` is idempotent on every host map, whatever values its
entries carry, and a name that is empty after its leading `www.` is removed
leaves the map as it is. -/
theorem addHost_idempotent (hosts : HostMap) (name : Str) :
    addHost (addHost hosts name) name = addHost hosts name ∧
    ((if HasPrefix name "www.".toList then Replace name "www.".toList [] 1 else name) = [] →
      addHost hosts name = hosts) := by
  constructor
  · rw [addHost_eq (addHost hosts name) name, addHost_eq hosts name]
    generalize (if HasPrefix name "www.".toList then name.drop 4 else name) = n
    by_cases h : n = [] ∨ n ∈ keys hosts
    · rw [if_pos h, if_pos h]
    · rw [if_neg h, if_pos]
      right
      simp [keys]
  · intro h
    rw [addHost_name] at h
    rw [addHost_eq, if_pos (Or.inl h)]

/-- Witness of `addHost_idempotent`: `www.` is empty after stripping, and a
host that carries a surrogate body is left alone. -/
theorem addHost_idempotent_witness :
    addHost (addHost [("a.com".toList, "x()".toList)] "www.".toList) "www.".toList =
      addHost [("a.com".toList, "x()".toList)] "www.".toList ∧
    addHost [("a.com".toList, "x()".toList)] "www.".toList =
      [("a.com".toList, "x()".toList)] :=
  have h := addHost_idempotent [("a.com".toList, "x()".toList)] "www.".toList
  ⟨h.1, h.2 (by decide)⟩

/-! ## The snapshot round trip -/

theorem suffixLoop_nil (rl : List Str) (c : Str) : suffixLoop [] rl c = false := by
  induction rl generalizing c with
  | nil => rfl
  | cons lab rest ih => simp [suffixLoop, has, ih]

theorem compile_singleton (k : Str) : compile [k] = [(k, [])] := by
  simp [compile, compileStep, suffixLoop_nil, keys, evictLoop, set, has]

theorem replicate_x_facts (n : Nat) :
    List.replicate (n + 1) 'x' ≠ [] ∧
    HasPrefix (List.replicate (n + 1) 'x') "www.".toList = false ∧
    '\n' ∉ List.replicate (n + 1) 'x' ∧
    byteLength (List.replicate (n + 1) 'x') = n + 1 := by
  refine ⟨by simp [List.replicate_succ],
    by simp [HasPrefix, List.replicate_succ, List.isPrefixOf], ?_, ?_⟩
  · intro h
    have := List.eq_of_mem_replicate h
    exact absurd this (by decide)
  · generalize n + 1 = m
    induction m with
    | zero => rfl
    | succ m ih =>
      have e : utf8Len 'x' = 1 := by decide
      simp only [byteLength, List.replicate_succ, List.map_cons, List.sum_cons, e] at ih ⊢
      omega

/-- A host set whose only key is as long as the buffer of the scanner is
compiled to that key, and nothing of the snapshot is loaded. -/
theorem long_key_not_loaded (k : Str) (hne : k ≠ [])
    (hwww : HasPrefix k "www.".toList = false) (hnl : '\n' ∉ k)
    (hlen : MaxScanTokenSize ≤ byteLength k) :
    keys (compile (keys (addHost [] k))) = [k] ∧
    (readHosts prefixLib plainConfig (freshOutside (compiledFile [k]))
      ⟨[], [], []⟩).toOption.map (fun g => keys g.hosts) = some [] := by
  constructor
  · have e : (if HasPrefix k "www.".toList then k.drop 4 else k) = k := by
      rw [hwww]; rfl
    have ha : addHost [] k = [(k, [])] := by
      rw [addHost_eq, e, if_neg]
      · rfl
      · rw [not_or]
        exact ⟨hne, List.not_mem_nil _⟩
    rw [ha]
    show keys (compile [k]) = [k]
    rw [compile_singleton]; rfl
  · have hfile : (freshOutside (compiledFile [k])).compiled =
        some (1699999999000000000, compiledFile [k]) := rfl
    have hfresh : ¬ unix (freshOutside (compiledFile [k])).now >
        addSeconds 1699999999000000000 plainConfig.CacheHosts := by
      show ¬ unix 1700000000000000000 > addSeconds 1699999999000000000 3600
      decide
    unfold readHosts
    simp only [hfile, if_neg hfresh]
    rw [forEach_addHost, scanLines_long_first k [] hnl hlen]
    rfl

/-- C2 (as stated, refuted): `addHost("www.www.a.com")` puts `www.a.com` in
the host set, `compile` writes that line, and loading the snapshot into an
empty host set gives `a.com`, which `compile` did not write.  Likewise a
key with a line feed is read back as two hosts, a key that ends with a
carriage return is read back without it, and a key of 65536 bytes is written
but never read back: the scanner stops at it. -/
theorem snapshot_roundtrip_loses_www :
    keys (addHost [] "www.www.a.com".toList) = ["www.a.com".toList] ∧
    keys (compile ["www.a.com".toList]) = ["www.a.com".toList] ∧
    (readHosts prefixLib plainConfig (freshOutside (compiledFile ["www.a.com".toList]))
      ⟨[], [], []⟩).toOption.map (fun g => keys g.hosts) = some ["a.com".toList] ∧
    keys (compile (keys (addHost [] "a.com\nb.org".toList))) = ["a.com\nb.org".toList] ∧
    (readHosts prefixLib plainConfig (freshOutside (compiledFile ["a.com\nb.org".toList]))
      ⟨[], [], []⟩).toOption.map (fun g => keys g.hosts) =
        some ["a.com".toList, "b.org".toList] ∧
    keys (compile (keys (addHost [] "a.com\r".toList))) = ["a.com\r".toList] ∧
    (readHosts prefixLib plainConfig (freshOutside (compiledFile ["a.com\r".toList]))
      ⟨[], [], []⟩).toOption.map (fun g => keys g.hosts) = some ["a.com".toList] ∧
    keys (compile (keys (addHost [] (List.replicate 65536 'x')))) =
      [List.replicate 65536 'x'] ∧
    (readHosts prefixLib plainConfig (freshOutside (compiledFile [List.replicate 65536 'x']))
      ⟨[], [], []⟩).toOption.map (fun g => keys g.hosts) = some [] := by
  have hx := replicate_x_facts 65535
  have hlong := long_key_not_loaded (List.replicate (65535 + 1) 'x') hx.1 hx.2.1 hx.2.2.1
    (by rw [hx.2.2.2]; decide)
  exact ⟨by decide, by decide, by decide, by decide, by decide, by decide, by decide,
    hlong.1, hlong.2⟩

/-- C2 (amended): for a host set built by `addHost` calls in which no key
begins with `www.`, holds a line feed, ends with a carriage return or is
65536 bytes or longer, loading the unexpired snapshot that `compile` wrote
into an empty host set succeeds and yields exactly the hostnames written,
each with an empty surrogate body: the keys of the output set of
`compile`. -/
theorem snapshot_roundtrip (lib : RegexpLib) (s : ConfigT) (out : Outside) (g : Globals lib)
    (names order written : List Str) (modTime : Int)
    (hg : g.hosts = [])
    (horder : order.Perm (keys (names.foldl addHost [])))
    (hwritten : written.Perm (keys (compile order)))
    (hfile : out.compiled = some (modTime, compiledFile written))
    (hfresh : ¬ unix out.now > addSeconds modTime s.CacheHosts)
    (hkeys : ∀ k ∈ keys (names.foldl addHost []),
      HasPrefix k "www.".toList = false ∧ '\n' ∉ k ∧ k.getLast? ≠ some '\r' ∧
        byteLength k < 65536) :
    readHosts lib s out g = .ok { g with hosts := written.map (fun k => (k, [])) } ∧
    keys (written.map (fun k => (k, ([] : Str)))) = written ∧
    ∀ k, k ∈ written ↔ k ∈ keys (compile order) := by
  have hc := keys_compile order
  have hmem : ∀ k ∈ written, k ∈ keys (names.foldl addHost []) :=
    fun k hk => horder.subset (hc.2 k (hwritten.subset hk))
  have hne := keys_foldl_addHost_ne_nil names [] (fun k hk => absurd hk (List.not_mem_nil _))
  have hscan : scanLines (compiledFile written) = written :=
    scanLines_compiledFile written (fun k hk => (hkeys k (hmem k hk)).2)
  have hfold : written.foldl addHost [] = [] ++ written.map (fun k => (k, [])) :=
    foldl_addHost_fresh written [] (hwritten.nodup_iff.2 hc.1)
      (fun k _ => List.not_mem_nil _)
      (fun k hk => ⟨hne k (hmem k hk), (hkeys k (hmem k hk)).1⟩)
  refine ⟨?_, ?_, fun k => hwritten.mem_iff⟩
  · unfold readHosts
    simp only [hfile, if_neg hfresh]
    rw [forEach_addHost, hscan, hg, hfold, List.nil_append]
  · rw [keys, List.map_map]
    exact List.map_id _

/-- Witness of `snapshot_roundtrip`: the host set built from `b.org` and
`www.a.com`, visited and written in the opposite order. -/
theorem snapshot_roundtrip_witness :
    readHosts prefixLib plainConfig
        (freshOutside (compiledFile ["a.com".toList, "b.org".toList])) ⟨[], [], []⟩ =
      .ok ⟨["a.com".toList, "b.org".toList].map (fun k => (k, [])), [], []⟩ :=
  (snapshot_roundtrip prefixLib plainConfig
    (freshOutside (compiledFile ["a.com".toList, "b.org".toList])) ⟨[], [], []⟩
    ["b.org".toList, "www.a.com".toList] ["a.com".toList, "b.org".toList]
    ["a.com".toList, "b.org".toList] 1699999999000000000 rfl
    (by decide) (by decide) rfl (by decide) (by decide)).1

/-! ## loadList -/

/-- C7: for a pattern that compiles, `compileSurrogate(reg, sur)` leaves the
keys of the host map as they are, maps every host that matches to the script
with each `@@` replaced by `function()\x7b\x7d` (no `@@` is left in it),
leaves the value of every other host as it was, and appends the record of
the compiled pattern and the replaced script at the end of the surrogate
list. -/
theorem compileSurrogate_spec (lib : RegexpLib) (g : Globals lib) (reg sur : Str)
    (c : lib.Regexp) (hc : lib.Compile reg = some c) :
    ∃ g', compileSurrogate lib g reg sur = .ok g' ∧
      keys g'.hosts = keys g.hosts ∧
      (∀ h ∈ keys g.hosts, lib.MatchString c h = true →
        get g'.hosts h = Replace sur "@@".toList "function()\x7b\x7d".toList (-1)) ∧
      (∀ h, lib.MatchString c h = false → get g'.hosts h = get g.hosts h) ∧
      g'.surrogates =
        g.surrogates ++ [(c, Replace sur "@@".toList "function()\x7b\x7d".toList (-1))] ∧
      g'.regexps = g.regexps ∧
      NoAtAt (Replace sur "@@".toList "function()\x7b\x7d".toList (-1)) := by
  have h := surrogateLoop_spec (lib.MatchString c)
    (Replace sur "@@".toList "function()\x7b\x7d".toList (-1)) (keys g.hosts) g.hosts
    (fun _ hh => hh)
  refine ⟨{ g with
      surrogates := g.surrogates ++
        [(c, Replace sur "@@".toList "function()\x7b\x7d".toList (-1))]
      hosts := surrogateLoop (lib.MatchString c)
        (Replace sur "@@".toList "function()\x7b\x7d".toList (-1)) (keys g.hosts) g.hosts },
    by unfold compileSurrogate; simp only [hc], h.1, ?_, ?_, rfl, rfl, Replace_leaves_none sur⟩
  · intro x hx hm
    show get (surrogateLoop _ _ _ _) x = _
    rw [h.2 x, if_pos ⟨hm, hx⟩]
  · intro x hm
    show get (surrogateLoop _ _ _ _) x = _
    rw [h.2 x, if_neg]
    rintro ⟨h1, _⟩
    rw [hm] at h1
    exact Bool.noConfusion h1

/-- Witness of `compileSurrogate_spec`: the surrogate `window.ads=...` for
the hosts that begin with `ads.`, compiled while `ads.site` and `b.org` are
blocked. -/
theorem compileSurrogate_spec_witness :
    ∃ g', compileSurrogate prefixLib adsGlobals "ads.".toList
        "window.ads=\x7bpush:@@\x7d;".toList = .ok g' ∧
      keys g'.hosts = ["ads.site".toList, "b.org".toList] ∧
      get g'.hosts "ads.site".toList = "window.ads=\x7bpush:function()\x7b\x7d\x7d;".toList ∧
      get g'.hosts "b.org".toList = "old()".toList ∧
      g'.surrogates =
        [("ads.".toList, "window.ads=\x7bpush:function()\x7b\x7d\x7d;".toList)] :=
  match compileSurrogate_spec prefixLib adsGlobals "ads.".toList
      "window.ads=\x7bpush:@@\x7d;".toList "ads.".toList rfl with
  | ⟨g', h1, h2, h3, h4, h5, _⟩ =>
    ⟨g', h1, h2, h3 "ads.site".toList (by decide) (by decide),
      h4 "b.org".toList (by decide), h5⟩

/-! ## The block handler -/

/-- C8 (the code breaks the claim): the surrogate lookup returns the script
`var r=n%m;` for `ads.site`, and both handlers write it through
`fmt.Fprintf` as a format, so the body is `var r=n%!m(MISSING);`. -/
theorem surrogate_body_is_formatted :
    findSurrogate prefixLib remainderGlobals "ads.site".toList = ("var r=n%m;".toList, true) ∧
    (dnsblock.ServeHTTP prefixLib remainderGlobals durationToSeconds 0 noStore "ads.site".toList
        "/x.js".toList).map (fun r => (r.2.contentType, r.2.body)) =
      some (some "application/javascript".toList, "var r=n%!m(MISSING);".toList) ∧
    (srvhttp.spoof (fun _ => ("var r=n%m;".toList, true)) tplBlocked Response.new
        "ads.site".toList "x.js".toList).body = "var r=n%!m(MISSING);".toList := by
  decide

/-- C9 (the code breaks the claim): with no surrogate and the path
`index.html`, `spoof` of srvhttp answers `text/html` with the block notice
wrapped in `/*` and `*/`, which is not the block notice itself; `ServeHTTP`
of dnsblock answers the same request with the notice unwrapped. -/
theorem srvhttp_html_notice_in_comment :
    (srvhttp.spoof (fun _ => ([], false)) tplBlocked Response.new "tracker.example".toList
        "index.html".toList).contentType = some "text/html".toList ∧
    (srvhttp.spoof (fun _ => ([], false)) tplBlocked Response.new "tracker.example".toList
        "index.html".toList).body =
      "/*".toList ++ tplBlocked "tracker.example".toList "index.html".toList ++ "*/".toList ∧
    (srvhttp.spoof (fun _ => ([], false)) tplBlocked Response.new "tracker.example".toList
        "index.html".toList).body ≠
      tplBlocked "tracker.example".toList "index.html".toList ∧
    (dnsblock.ServeHTTP prefixLib adsGlobals durationToSeconds 0 noStore
        "tracker.example".toList
        "/index.html".toList).map (fun r => (r.2.contentType, r.2.body)) =
      some (some "text/html".toList, blocked "tracker.example".toList "index.html".toList) := by
  decide

/-! ## The control handler -/

/-- C10 (as stated, refuted): `300y` is a duration of 9460800000 seconds;
as a `time.Duration` of nanoseconds it overflows, and the control handler
sets the override deadline to a time long before the request instead of
`now + s`. -/
theorem allow_deadline_overflows :
    durationToSeconds "300y".toList = .ok 9460800000 ∧
    (dnsblock.handleHttpSpecial durationToSeconds 1700000000000000000 noStore Response.new
        "tracker.example".toList "$@_allow/300y/x".toList).map
      (fun r => r.1.override "tracker.example".toList) = some (some (-7285944074)) ∧
    (srvhttp.special durationToSeconds 1700000000000000000 noStore Response.new
        "tracker.example".toList "$@_allow/300y/x".toList).map
      (fun r => r.1.override "tracker.example".toList) = some (some (-7285944074)) ∧
    unix 1700000000000000000 + 9460800000 ≠ -7285944074 := by
  refine ⟨rfl, ?_, ?_, ?_⟩ <;> decide

/-- C10 (amended): for every control url `$@_allow/d/rest` where `d` has no
`/` and parses as a duration of `s` seconds that fits a `time.Duration`
(`s * 10^9` is an `int64`), the control handler of dnsblock and the one of
srvhttp (with `Override.Store` and `Cache.Delete` as the spec has them) set
the override deadline of the host to the second of the request plus `s` and
leave every other override entry, remove the DNS cache keys `A host` and
`AAAA host` and leave every other cache entry, and answer 303 with
`Location` equal to `/rest`. -/
theorem allow_spec {β : Type} (dur : Str → Except Str Int) (now : Int) (st : Store β)
    (w : Response) (host d rest : Str) (s : Int)
    (hd : '/' ∉ d) (hdur : dur d = .ok s)
    (hlo : -2 ^ 63 ≤ s * 1000000000) (hhi : s * 1000000000 < 2 ^ 63) :
    ∃ st' w',
      dnsblock.handleHttpSpecial dur now st w host
          ("$@_allow/".toList ++ d ++ "/".toList ++ rest) = some (st', w') ∧
      srvhttp.special dur now st w host
          ("$@_allow/".toList ++ d ++ "/".toList ++ rest) = some (st', w') ∧
      st'.override host = some (unix now + s) ∧
      (∀ h, h ≠ host → st'.override h = st.override h) ∧
      st'.cache ("A ".toList ++ host) = none ∧
      st'.cache ("AAAA ".toList ++ host) = none ∧
      (∀ k, k ≠ "A ".toList ++ host → k ≠ "AAAA ".toList ++ host → st'.cache k = st.cache k) ∧
      w' = { w with status := 303, location := some ("/".toList ++ rest) } := by
  have hurl : "$@_allow/".toList ++ d ++ "/".toList ++ rest =
      "$@_allow".toList ++ '/' :: (d ++ '/' :: rest) := by
    simp
  have hpre : HasPrefix ("$@_allow/".toList ++ d ++ "/".toList ++ rest) "$@_allow".toList = true :=
    (HasPrefix_iff _ _).2 ⟨_, hurl⟩
  have hsplit : Split '/' ("$@_allow/".toList ++ d ++ "/".toList ++ rest) =
      "$@_allow".toList :: d :: Split '/' rest := by
    rw [hurl, Split_append_sep _ _ _ (by decide), Split_append_sep _ _ _ hd]
  have hjoin : Join "/".toList (Split '/' rest) = rest := Join_Split '/' rest
  have hrun : dnsblock.handleHttpSpecial dur now st w host
      ("$@_allow/".toList ++ d ++ "/".toList ++ rest) =
      some (⟨st.override.store host (addSeconds now s),
        (st.cache.delete ("A ".toList ++ host)).delete ("AAAA ".toList ++ host)⟩,
        { w with status := 303, location := some ("/".toList ++ rest) }) := by
    unfold dnsblock.handleHttpSpecial
    simp only [hpre, if_true, hsplit, List.getElem?_cons_succ, List.getElem?_cons_zero, hdur,
      List.drop_succ_cons, List.drop_zero, hjoin]
  have hrun2 : srvhttp.special dur now st w host
      ("$@_allow/".toList ++ d ++ "/".toList ++ rest) =
      some (⟨st.override.store host (addSeconds now s),
        (st.cache.delete ("A ".toList ++ host)).delete ("AAAA ".toList ++ host)⟩,
        { w with status := 303, location := some ("/".toList ++ rest) }) := by
    unfold srvhttp.special
    simp only [hpre, if_true, hsplit, List.getElem?_cons_succ, List.getElem?_cons_zero, hdur,
      List.drop_succ_cons, List.drop_zero, hjoin]
    rfl
  refine ⟨_, _, hrun, hrun2, ?_, ?_, ?_, ?_, ?_, rfl⟩
  · simp [KeyMap.store, addSeconds_of_range now s hlo hhi]
  · intro h hh
    simp [KeyMap.store, hh]
  · simp [KeyMap.delete]
  · simp [KeyMap.delete]
  · intro k h1 h2
    show (if k = "AAAA ".toList ++ host then none
      else if k = "A ".toList ++ host then none else st.cache k) = st.cache k
    rw [if_neg h2, if_neg h1]

/-- Witness of `allow_spec`: the request `$@_allow/10s/foo/bar` for
`tracker.example` is answered 303 with `Location` `/foo/bar`, and the host
is allowed until ten seconds after the request. -/
theorem allow_spec_witness :
    ∃ st' w',
      dnsblock.handleHttpSpecial durationToSeconds 1700000000000000000 noStore Response.new
          "tracker.example".toList "$@_allow/10s/foo/bar".toList = some (st', w') ∧
      st'.override "tracker.example".toList = some 1700000010 ∧
      w'.status = 303 ∧ w'.location = some "/foo/bar".toList :=
  match allow_spec durationToSeconds 1700000000000000000 noStore Response.new
      "tracker.example".toList "10s".toList "foo/bar".toList 10 (by decide) rfl (by decide)
      (by decide) with
  | ⟨st', w', h1, _, h3, _, _, _, _, h8⟩ => ⟨st', w', h1, h3, by rw [h8], by rw [h8]; rfl⟩

/-! ## findResolver -/

/-- C13 (the code breaks the claim): the two orders of visiting the host set
of `s7.addthis.com` and `addthis.com` give different output sets, one with
`s7.addthis.com` and one without. -/
theorem compile_depends_on_order :
    ["addthis.com".toList, "s7.addthis.com".toList].Perm
      ["s7.addthis.com".toList, "addthis.com".toList] ∧
    keys (compile ["addthis.com".toList, "s7.addthis.com".toList]) = ["addthis.com".toList] ∧
    keys (compile ["s7.addthis.com".toList, "addthis.com".toList]) =
      ["s7.addthis.com".toList, "addthis.com".toList] ∧
    "s7.addthis.com".toList ∉ keys (compile ["addthis.com".toList, "s7.addthis.com".toList]) ∧
    "s7.addthis.com".toList ∈ keys (compile ["s7.addthis.com".toList, "addthis.com".toList]) := by
  decide

/-! ## findSurrogate -/

/-- C14 (the code breaks the claim): with `ads.site` blocked and two
surrogates registered whose patterns both match it, the map lookup of
`findSurrogate` returns the script registered last, the linear scan of the
surrogate list the script registered first. -/
theorem findSurrogate_returns_last_registered :
    (forEach (fun g v => compileSurrogate prefixLib g v.1 v.2)
        [("ads.".toList, "first()".toList), ("ads.s".toList, "second()".toList)]
        ⟨[("ads.site".toList, [])], [], []⟩).toOption.map
      (fun g => (findSurrogate prefixLib g "ads.site".toList,
        linearScan prefixLib g.surrogates "ads.site".toList)) =
    some (("second()".toList, true), ("first()".toList, true)) := by
  decide

/-! ## The control handler on short urls -/

/-- C16 (the code breaks the claim): the request path `/$@_allow` is
dispatched to the control handler with the url `$@_allow`, which splits into
one piece, and `params[1]` is out of range in both handlers. -/
theorem allow_without_slash_panics :
    HasPrefix "$@_allow".toList "$@_allow".toList = true ∧
    (Split '/' "$@_allow".toList).length = 1 ∧
    (dnsblock.ServeHTTP prefixLib adsGlobals durationToSeconds 0 noStore
      "tracker.example".toList "/$@_allow".toList).isSome = false ∧
    (srvhttp.ServeHTTP (fun _ => ([], false)) tplBlocked durationToSeconds 0 noStore
      "tracker.example".toList "/$@_allow".toList).isSome = false := by
  decide

/-! ## readHosts with a fresh snapshot -/

theorem lookup_append_of_mem (m ext : HostMap) (k : Str) (hk : k ∈ keys m) :
    List.lookup k (m ++ ext) = List.lookup k m := by
  induction m with
  | nil => exact absurd hk (List.not_mem_nil _)
  | cons e rest ih =>
    obtain ⟨a, b⟩ := e
    rw [List.cons_append, lookup_cons_eq, lookup_cons_eq]
    by_cases h : k = a
    · rw [if_pos h, if_pos h]
    · rw [if_neg h, if_neg h]
      apply ih
      simp only [keys, List.map_cons, List.mem_cons] at hk
      rcases hk with hk | hk
      · exact absurd hk h
      · exact hk

theorem lookup_append_of_not_mem (m ext : HostMap) (k : Str) (hk : k ∉ keys m) :
    List.lookup k (m ++ ext) = List.lookup k ext := by
  induction m with
  | nil => rfl
  | cons e rest ih =>
    obtain ⟨a, b⟩ := e
    simp only [keys, List.map_cons, List.mem_cons, not_or] at hk
    rw [List.cons_append, lookup_cons_eq, if_neg hk.1]
    exact ih hk.2

theorem get_of_values_nil (ext : HostMap) (k : Str) (h : ∀ e ∈ ext, e.2 = []) :
    get ext k = [] := by
  induction ext with
  | nil => rfl
  | cons e rest ih =>
    obtain ⟨a, b⟩ := e
    have hb : b = [] := h (a, b) (List.mem_cons_self _ _)
    unfold get at ih ⊢
    rw [lookup_cons_eq]
    by_cases hk : k = a
    · rw [if_pos hk, hb]; rfl
    · rw [if_neg hk]
      exact ih (fun e he => h e (List.mem_cons_of_mem _ he))

/-- Adding names appends entries with an empty surrogate body and leaves the
entries that were there. -/
theorem foldl_addHost_ext (lines : List Str) (m : HostMap) :
    ∃ ext, lines.foldl addHost m = m ++ ext ∧ ∀ e ∈ ext, e.2 = [] := by
  induction lines generalizing m with
  | nil => exact ⟨[], by simp, fun e he => absurd he (List.not_mem_nil _)⟩
  | cons l ls ih =>
    rw [List.foldl_cons, addHost_eq]
    generalize (if HasPrefix l "www.".toList then l.drop 4 else l) = n
    by_cases h : n = [] ∨ n ∈ keys m
    · rw [if_pos h]; exact ih m
    · rw [if_neg h]
      obtain ⟨ext, he, hv⟩ := ih (m ++ [(n, [])])
      refine ⟨(n, []) :: ext, by rw [he]; simp, fun e hmem => ?_⟩
      rcases List.mem_cons.1 hmem with h1 | h1
      · rw [h1]
      · exact hv e h1

/-- C17: when the compiled snapshot exists and is not expired, `readHosts`
returns after adding the lines of the snapshot through `addHost`, whatever
the lists, hosts, unhosts, regexps and surrogates of the configuration: the
regexp list and the surrogate list are as before, every host that was in
the host set (a configured unhost too) is still there with the surrogate
body it had, and every host added has an empty surrogate body. -/
theorem readHosts_fresh_snapshot (lib : RegexpLib) (s : ConfigT) (out : Outside)
    (g : Globals lib) (modTime : Int) (data : Str)
    (hfile : out.compiled = some (modTime, data))
    (hfresh : ¬ unix out.now > addSeconds modTime s.CacheHosts) :
    ∃ g', readHosts lib s out g = .ok g' ∧
      g'.hosts = (scanLines data).foldl addHost g.hosts ∧
      g'.regexps = g.regexps ∧
      g'.surrogates = g.surrogates ∧
      (∀ k ∈ keys g.hosts, k ∈ keys g'.hosts ∧ get g'.hosts k = get g.hosts k) ∧
      (∀ k ∈ keys g'.hosts, k ∉ keys g.hosts → get g'.hosts k = []) := by
  refine ⟨{ g with hosts := (scanLines data).foldl addHost g.hosts }, ?_, rfl, rfl, rfl, ?_, ?_⟩
  · unfold readHosts
    simp only [hfile, if_neg hfresh]
    rw [forEach_addHost]
  · intro k hk
    obtain ⟨ext, he, _⟩ := foldl_addHost_ext (scanLines data) g.hosts
    show k ∈ keys ((scanLines data).foldl addHost g.hosts) ∧
      get ((scanLines data).foldl addHost g.hosts) k = get g.hosts k
    rw [he]
    refine ⟨?_, ?_⟩
    · simp only [keys, List.map_append, List.mem_append]
      exact Or.inl hk
    · unfold get
      rw [lookup_append_of_mem _ _ _ hk]
  · intro k _ hk
    obtain ⟨ext, he, hv⟩ := foldl_addHost_ext (scanLines data) g.hosts
    show get ((scanLines data).foldl addHost g.hosts) k = []
    rw [he]
    have := get_of_values_nil ext k hv
    unfold get at this ⊢
    rw [lookup_append_of_not_mem _ _ _ hk]
    exact this

/-- Witness of `readHosts_fresh_snapshot`: a configuration with a host list,
the unhost `b.org`, a regexp and a surrogate, a host set that holds `b.org`
with a surrogate body, and a fresh snapshot with the line `a.com`. -/
theorem readHosts_fresh_snapshot_witness :
    ∃ g', readHosts prefixLib busyConfig (freshOutside "a.com\n".toList) adsGlobals = .ok g' ∧
      g'.hosts = adsGlobals.hosts ++ [("a.com".toList, [])] ∧
      g'.regexps = [] ∧ g'.surrogates = [] ∧
      "b.org".toList ∈ keys g'.hosts ∧ get g'.hosts "b.org".toList = "old()".toList ∧
      get g'.hosts "a.com".toList = [] :=
  match readHosts_fresh_snapshot prefixLib busyConfig (freshOutside "a.com\n".toList)
      adsGlobals 1699999999000000000 "a.com\n".toList rfl (by decide) with
  | ⟨g', h1, h2, h3, h4, h5, h6⟩ =>
    ⟨g', h1, h2, h3, h4, (h5 "b.org".toList (by decide)).1, (h5 "b.org".toList (by decide)).2,
      h6 "a.com".toList (by rw [h2]; decide) (by decide)⟩

/-! ## removeHost -/

theorem lookup_del_of_ne (m : HostMap) (v k : Str) (h : k ≠ v) :
    List.lookup k (del m v) = List.lookup k m := by
  induction m with
  | nil => rfl
  | cons e rest ih =>
    obtain ⟨a, b⟩ := e
    unfold del at ih ⊢
    by_cases hav : a = v
    · subst hav
      have e1 : List.filter (fun e : Str × Str => !(e.1 == a)) ((a, b) :: rest) =
          List.filter (fun e : Str × Str => !(e.1 == a)) rest := by
        simp [List.filter]
      rw [e1, ih, lookup_cons_eq, if_neg h]
    · have e1 : List.filter (fun e : Str × Str => !(e.1 == v)) ((a, b) :: rest) =
          (a, b) :: List.filter (fun e : Str × Str => !(e.1 == v)) rest := by
        have hb : (a == v) = false := by simpa using hav
        simp [List.filter, hb]
      rw [e1, lookup_cons_eq, lookup_cons_eq, ih]

theorem mem_keys_del (m : HostMap) (v k : Str) : k ∈ keys (del m v) ↔ k ∈ keys m ∧ k ≠ v := by
  rw [keys_del]
  simp [List.mem_filter]

theorem mem_keys_addHost_www (hosts : HostMap) (x : Str) (hx : x ≠ []) :
    x ∈ keys (addHost hosts ("www.".toList ++ x)) := by
  rw [addHost_eq]
  have hp : HasPrefix ("www.".toList ++ x) "www.".toList = true := (HasPrefix_iff _ _).2 ⟨x, rfl⟩
  have e : (if HasPrefix ("www.".toList ++ x) "www.".toList then ("www.".toList ++ x).drop 4
      else "www.".toList ++ x) = x := by
    rw [if_pos hp]; rfl
  rw [e]
  by_cases h : x = [] ∨ x ∈ keys hosts
  · rw [if_pos h]
    rcases h with h | h
    · exact absurd h hx
    · exact h
  · rw [if_neg h]
    simp [keys]

/-- C18: `removeHost(v)` removes the key `v` and nothing else, every other
key stays with its value, and no `www.` is stripped from `v`: for every
non-empty `x`, whether or not it begins with `www.`, after
`addHost("www." ++ x)` and `removeHost("www." ++ x)` the host `x` is in the
host set. -/
theorem removeHost_literal_key (hosts : HostMap) (v x : Str) :
    v ∉ keys (removeHost hosts v) ∧
    (∀ k, k ≠ v → ((k ∈ keys (removeHost hosts v) ↔ k ∈ keys hosts) ∧
      get (removeHost hosts v) k = get hosts k)) ∧
    (x ≠ [] →
      x ∈ keys (removeHost (addHost hosts ("www.".toList ++ x)) ("www.".toList ++ x))) := by
  unfold removeHost
  refine ⟨fun h => ((mem_keys_del _ _ _).1 h).2 rfl, fun k hk => ⟨?_, ?_⟩, fun hx => ?_⟩
  · rw [mem_keys_del]
    exact ⟨fun h => h.1, fun h => ⟨h, hk⟩⟩
  · unfold get
    rw [lookup_del_of_ne _ _ _ hk]
  · rw [mem_keys_del]
    refine ⟨mem_keys_addHost_www hosts x hx, fun h => ?_⟩
    have hl := congrArg List.length h
    simp only [List.length_append, String.toList, List.length_cons, List.length_nil] at hl
    omega

/-- Witness of `removeHost_literal_key`: after `addHost("www.example.com")`
and `removeHost("www.example.com")` the host `example.com` is still
blocked. -/
theorem removeHost_literal_key_witness :
    "example.com".toList ∈
      keys (removeHost (addHost [] "www.example.com".toList) "www.example.com".toList) :=
  (removeHost_literal_key [] "www.example.com".toList "example.com".toList).2.2 (by decide)

/-! ## compile never evicts -/

theorem suffixLoop_iff (m : HostMap) (rl : List Str) (c : Str) :
    suffixLoop m rl c = true ↔ ∃ x ∈ suffixesTried rl c, x ∈ keys m := by
  induction rl generalizing c with
  | nil => simp [suffixLoop, suffixesTried]
  | cons lab rest ih =>
    simp only [suffixLoop, suffixesTried]
    generalize (if c = [] then lab else lab ++ ".".toList ++ c) = c'
    by_cases h : has m c' = true
    · simp only [h, if_true, true_iff]
      exact ⟨c', List.mem_cons_self _ _, (has_iff _ _).1 h⟩
    · have hn : c' ∉ keys m := fun hm => h ((has_iff _ _).2 hm)
      simp only [h, if_false, Bool.false_eq_true]
      rw [ih c']
      constructor
      · rintro ⟨x, hx, hm⟩; exact ⟨x, List.mem_cons_of_mem _ hx, hm⟩
      · rintro ⟨x, hx, hm⟩
        rcases List.mem_cons.1 hx with h1 | h1
        · exact absurd (h1 ▸ hm) hn
        · exact ⟨x, h1, hm⟩

theorem Join_ne_nil_of_cons (y : Str) (b : List Str) (hb : b ≠ []) :
    Join ".".toList (y :: b) ≠ [] := by
  rw [Join_cons _ _ _ hb]
  simp

theorem suffixesTried_mem (r : List Str) (b : List Str) (hb : b ≠ [])
    (hj : Join ".".toList b ≠ []) (x : Str) :
    x ∈ suffixesTried r (Join ".".toList b) ↔
      ∃ p, p ≠ [] ∧ p <+: r ∧ x = Join ".".toList (p.reverse ++ b) := by
  induction r generalizing b with
  | nil =>
    simp only [suffixesTried, List.not_mem_nil, false_iff]
    rintro ⟨p, hp, hpre, _⟩
    exact hp (List.prefix_nil.1 hpre)
  | cons y r ih =>
    have hc : (if Join ".".toList b = [] then y else y ++ ".".toList ++ Join ".".toList b) =
        Join ".".toList (y :: b) := by
      rw [if_neg hj, Join_cons _ _ _ hb]
    simp only [suffixesTried]
    rw [hc, List.mem_cons, ih (y :: b) (List.cons_ne_nil _ _) (Join_ne_nil_of_cons y b hb)]
    constructor
    · rintro (h | ⟨p, hp, hpre, hx⟩)
      · exact ⟨[y], List.cons_ne_nil _ _, by simp, by rw [h]; rfl⟩
      · refine ⟨y :: p, List.cons_ne_nil _ _, ?_, ?_⟩
        · exact (List.cons_prefix_cons).2 ⟨rfl, hpre⟩
        · rw [hx]; simp
    · rintro ⟨p, hp, hpre, hx⟩
      cases p with
      | nil => exact absurd rfl hp
      | cons z q =>
        obtain ⟨hz, hq⟩ := (List.cons_prefix_cons).1 hpre
        subst hz
        by_cases hq0 : q = []
        · subst hq0
          left; rw [hx]; rfl
        · right
          exact ⟨q, hq0, hq, by rw [hx]; simp⟩

theorem labelSuffixes_mem (name x : Str) :
    x ∈ labelSuffixes name ↔ ∃ t, t ≠ [] ∧ t <:+ Split '.' name ∧ x = Join ".".toList t := by
  unfold labelSuffixes
  simp only [List.mem_reverse, List.mem_map, List.mem_filter, List.mem_tails]
  constructor
  · rintro ⟨t, ⟨hs, hne⟩, rfl⟩
    refine ⟨t, ?_, hs, rfl⟩
    intro h; subst h; simp at hne
  · rintro ⟨t, hne, hs, rfl⟩
    refine ⟨t, ⟨hs, ?_⟩, rfl⟩
    cases t with
    | nil => exact absurd rfl hne
    | cons a as => rfl

/-- For a host whose last label is not empty, the suffixes that the loop of
`compile` builds are the label suffixes of the host. -/
theorem suffixesTried_eq_labelSuffixes (name x : Str)
    (hlast : (Split '.' name).getLast? ≠ some []) :
    x ∈ suffixesTried (Split '.' name).reverse [] ↔ x ∈ labelSuffixes name := by
  rw [labelSuffixes_mem]
  have hne := Split_ne_nil '.' name
  generalize Split '.' name = ls at hlast hne ⊢
  have hrev : ls.reverse ≠ [] := fun h => hne (List.reverse_eq_nil_iff.1 h)
  obtain ⟨last, r, hr⟩ := List.exists_cons_of_ne_nil hrev
  have hls : ls = r.reverse ++ [last] := by
    have := congrArg List.reverse hr
    simpa using this
  have hlastne : last ≠ [] := by
    intro h
    apply hlast
    rw [hls, h]; simp
  rw [hr]
  have hstep : suffixesTried (last :: r) [] = last :: suffixesTried r (Join ".".toList [last]) := by
    simp [suffixesTried, Join]
  rw [hstep, List.mem_cons,
    suffixesTried_mem r [last] (List.cons_ne_nil _ _) (by simpa [Join] using hlastne)]
  constructor
  · rintro (h | ⟨p, _, hpre, hx⟩)
    · refine ⟨[last], List.cons_ne_nil _ _, ?_, by rw [h]; rfl⟩
      rw [hls]; exact List.suffix_append _ _
    · refine ⟨p.reverse ++ [last], by simp, ?_, hx⟩
      rw [hls]
      obtain ⟨q, hq⟩ := hpre
      refine ⟨q.reverse, ?_⟩
      rw [← hq]; simp
  · rintro ⟨t, htne, hsuf, hx⟩
    have hpre : t.reverse <+: last :: r := by
      rw [← hr]; exact List.reverse_prefix.2 hsuf
    cases htr : t.reverse with
    | nil => exact absurd (List.reverse_eq_nil_iff.1 htr) htne
    | cons z q =>
      rw [htr] at hpre
      obtain ⟨hz, hq⟩ := (List.cons_prefix_cons).1 hpre
      subst hz
      have ht : t = q.reverse ++ [z] := by
        have := congrArg List.reverse htr
        simpa using this
      by_cases hq0 : q = []
      · subst hq0
        left; rw [hx, ht]; rfl
      · right
        exact ⟨q, hq0, hq, by rw [hx, ht]⟩

theorem Join_concat (sep a : Str) (init : List Str) (h : init ≠ []) :
    Join sep (init ++ [a]) = Join sep init ++ sep ++ a := by
  induction init with
  | nil => exact absurd rfl h
  | cons b rest ih =>
    by_cases hr : rest = []
    · subst hr; rfl
    · rw [List.cons_append, Join_cons _ _ _ (by simp), Join_cons _ _ _ hr, ih hr]
      simp

/-- The last label of a host that is not empty and does not end with a dot
is not empty. -/
theorem last_label_ne_nil (name : Str) (h1 : name ≠ []) (h2 : name.getLast? ≠ some '.') :
    (Split '.' name).getLast? ≠ some [] := by
  intro h
  obtain ⟨init, hinit⟩ := List.getLast?_eq_some_iff.1 h
  have hj := Join_Split '.' name
  rw [hinit] at hj
  by_cases hi : init = []
  · subst hi
    exact h1 hj.symm
  · rw [Join_concat _ _ _ hi] at hj
    apply h2
    rw [← hj]
    simp

theorem del_of_not_mem (m : HostMap) (k : Str) (h : k ∉ keys m) : del m k = m := by
  unfold del
  rw [List.filter_eq_self]
  intro e he
  have : e.1 ≠ k := fun hk => h (hk ▸ List.mem_map_of_mem Prod.fst he)
  simpa using this

theorem evictLoop_of_not_mem (name : Str) (visit : List Str) (m : HostMap)
    (h : name ∉ keys m) : evictLoop name visit m = m := by
  induction visit with
  | nil => rfl
  | cons host rest ih =>
    unfold evictLoop
    rw [del_of_not_mem m name h]
    split <;> exact ih

theorem compileStep_of_not_mem (m : HostMap) (name : Str) (h : name ∉ keys m) :
    compileStep m name =
      if suffixLoop m (Split '.' name).reverse [] then m else m ++ [(name, [])] := by
  unfold compileStep
  rw [evictLoop_of_not_mem name _ m h]
  unfold set
  rw [(has_eq_false_iff _ _).2 h]
  simp

theorem keys_compileStep_mono (m : HostMap) (name : Str) (h : name ∉ keys m) :
    ∀ k ∈ keys m, k ∈ keys (compileStep m name) := by
  rw [compileStep_of_not_mem m name h]
  split
  · exact fun k hk => hk
  · intro k hk
    simp only [keys, List.map_append, List.mem_append]
    exact Or.inl hk

theorem keys_foldl_compileStep_mono (post : List Str) (m : HostMap) (hm : (keys m).Nodup)
    (hnd : post.Nodup) (hdis : ∀ x ∈ post, x ∉ keys m) :
    ∀ k ∈ keys m, k ∈ keys (post.foldl compileStep m) := by
  induction post generalizing m with
  | nil => exact fun k hk => hk
  | cons name rest ih =>
    intro k hk
    have hname : name ∉ keys m := hdis name (List.mem_cons_self _ _)
    have hstep := keys_compileStep m name hm
    rw [List.foldl_cons]
    apply ih (compileStep m name) hstep.1 (List.nodup_cons.1 hnd).2
    · intro x hx hmem
      rcases hstep.2 x hmem with h | h
      · exact hdis x (List.mem_cons_of_mem _ hx) h
      · exact (List.nodup_cons.1 hnd).1 (h ▸ hx)
    · exact keys_compileStep_mono m name hname k hk

/-- C15 (as stated, refuted): `example.com.` is visited after `example.com`;
none of its label suffixes (the empty label, `com.` and `example.com.`) is
in the output at that moment, yet the loop builds `example.com` from its
labels, finds it, and leaves `example.com.` out of the output. -/
theorem compile_skips_trailing_dot :
    ["example.com".toList, "example.com.".toList].Nodup ∧
    labelSuffixes "example.com.".toList = [[], "com.".toList, "example.com.".toList] ∧
    (∀ x ∈ labelSuffixes "example.com.".toList, x ∉ keys (compile ["example.com".toList])) ∧
    suffixesTried (Split '.' "example.com.".toList).reverse [] =
      [[], "com".toList, "example.com".toList] ∧
    keys (compile ["example.com".toList, "example.com.".toList]) = ["example.com".toList] := by
  decide

/-- C15 (amended): when `compile` visits the keys of the host set, each
once, the delete of its eviction loop names a key that is not in the output
set and changes nothing, so no entry ever leaves the output set and the
output set is a subset of the host set; a host is in the output exactly
when, at the moment it was visited, none of the suffixes that the loop
builds from its labels was in the output, and for a host that is not empty
and does not end with a dot these are its label suffixes. -/
theorem compile_never_evicts (order pre post : List Str) (name : Str)
    (hnd : order.Nodup) (hsplit : order = pre ++ name :: post) :
    name ∉ keys (compile pre) ∧
    evictLoop name (keys (compile pre)) (compile pre) = compile pre ∧
    (∀ k ∈ keys (compile pre), k ∈ keys (compile order)) ∧
    (∀ k ∈ keys (compile order), k ∈ order) ∧
    (name ∈ keys (compile order) ↔
      ∀ x ∈ suffixesTried (Split '.' name).reverse [], x ∉ keys (compile pre)) ∧
    (name ≠ [] → name.getLast? ≠ some '.' →
      (name ∈ keys (compile order) ↔ ∀ x ∈ labelSuffixes name, x ∉ keys (compile pre))) := by
  subst hsplit
  obtain ⟨hpre, hrest, hdisj⟩ := List.nodup_append.1 hnd
  have hname_pre : name ∉ pre := fun h => hdisj h (List.mem_cons_self _ _)
  have hcp := keys_compile pre
  have hname : name ∉ keys (compile pre) := fun h => hname_pre (hcp.2 name h)
  have hstep := keys_compileStep (compile pre) name hcp.1
  have hfold : compile (pre ++ name :: post) =
      post.foldl compileStep (compileStep (compile pre) name) := by
    simp [compile, List.foldl_append]
  have hpost : ∀ x ∈ post, x ∉ keys (compileStep (compile pre) name) := by
    intro x hx hmem
    rcases hstep.2 x hmem with h | h
    · exact hdisj (hcp.2 x h) (List.mem_cons_of_mem _ hx)
    · exact (List.nodup_cons.1 hrest).1 (h ▸ hx)
  have hmono := keys_foldl_compileStep_mono post (compileStep (compile pre) name) hstep.1
    (List.nodup_cons.1 hrest).2 hpost
  have hiff : name ∈ keys (compile (pre ++ name :: post)) ↔
      ∀ x ∈ suffixesTried (Split '.' name).reverse [], x ∉ keys (compile pre) := by
    have hs := suffixLoop_iff (compile pre) (Split '.' name).reverse []
    rw [hfold]
    constructor
    · intro hin x hx hm
      have htrue : suffixLoop (compile pre) (Split '.' name).reverse [] = true :=
        hs.2 ⟨x, hx, hm⟩
      have hc := compileStep_of_not_mem (compile pre) name hname
      rw [htrue, if_pos rfl] at hc
      rw [hc] at hin
      rcases (keys_foldl_compileStep post (compile pre) hcp.1).2 name hin with h | h
      · exact hname h
      · exact (List.nodup_cons.1 hrest).1 h
    · intro hall
      have hfalse : ¬ suffixLoop (compile pre) (Split '.' name).reverse [] = true := by
        intro ht
        obtain ⟨x, hx, hm⟩ := hs.1 ht
        exact hall x hx hm
      apply hmono
      rw [compileStep_of_not_mem (compile pre) name hname, if_neg hfalse]
      simp [keys]
  refine ⟨hname, evictLoop_of_not_mem name _ _ hname, ?_, (keys_compile _).2, hiff, ?_⟩
  · intro k hk
    rw [hfold]
    exact hmono k (keys_compileStep_mono (compile pre) name hname k hk)
  · intro h1 h2
    rw [hiff]
    have hl := last_label_ne_nil name h1 h2
    constructor
    · intro h x hx
      exact h x ((suffixesTried_eq_labelSuffixes name x hl).2 hx)
    · intro h x hx
      exact h x ((suffixesTried_eq_labelSuffixes name x hl).1 hx)

/-- Witness of `compile_never_evicts`: `s7.addthis.com` visited between
`addthis.com` and `b.org`. -/
theorem compile_never_evicts_witness :
    "s7.addthis.com".toList ∉ keys (compile ["addthis.com".toList]) ∧
    (∀ k ∈ keys (compile ["addthis.com".toList]),
      k ∈ keys (compile ["addthis.com".toList, "s7.addthis.com".toList, "b.org".toList])) ∧
    ("s7.addthis.com".toList ∈
        keys (compile ["addthis.com".toList, "s7.addthis.com".toList, "b.org".toList]) ↔
      ∀ x ∈ labelSuffixes "s7.addthis.com".toList, x ∉ keys (compile ["addthis.com".toList])) :=
  have h := compile_never_evicts
    ["addthis.com".toList, "s7.addthis.com".toList, "b.org".toList] ["addthis.com".toList]
    ["b.org".toList] "s7.addthis.com".toList (by decide) rfl
  ⟨h.1, h.2.2.1, h.2.2.2.2.2 (by decide) (by decide)⟩

/-! ## getCert -/

/-- C12 (the code breaks the claim): for the empty server name `getCert`
returns an error and leaves the file system as it is; for `tracker.example`
it writes the key, the request and the leaf certificate, and then loads the
pair from the leaf certificate file together with the root key file, not
with `tracker.example.key`. -/
theorem getCert_loads_root_key (lib : CertLib) (rootCert rootKey : Str) (d : Disk) :
    getCert lib rootCert rootKey d [] = (.error "no ServerName".toList, d) ∧
    (getCert labelCertLib "/etc/trackwall/root.crt".toList "/etc/trackwall/root.key".toList
        rootDisk "tracker.example".toList).1 =
      .ok (some "CRT tracker.example".toList, some "ROOT KEY".toList) ∧
    (getCert labelCertLib "/etc/trackwall/root.crt".toList "/etc/trackwall/root.key".toList
        rootDisk "tracker.example".toList).2.files "/cache/certs/tracker.example.key".toList =
      some "KEY".toList ∧
    (getCert labelCertLib "/etc/trackwall/root.crt".toList "/etc/trackwall/root.key".toList
        rootDisk "tracker.example".toList).2.files "/cache/certs/tracker.example.crt".toList =
      some "CRT tracker.example".toList ∧
    (getCert labelCertLib "/etc/trackwall/root.crt".toList "/etc/trackwall/root.key".toList
        rootDisk "tracker.example".toList).2.files "/etc/trackwall/root.key".toList =
      some "ROOT KEY".toList ∧
    "KEY".toList ≠ "ROOT KEY".toList := by
  refine ⟨rfl, rfl, by decide, by decide, by decide, by decide⟩

end trackwall
